import Mathlib

/-!
Shallow embedding of the pairings-from-scratch repository.

The repository implements finite fields (a prime field `Mod13` with `i64`
elements and polynomial extension fields `Mod13_2`, `Mod13_4` whose elements
are `Polynomial<FieldElement<Mod13>>`), an elliptic-curve affine group law,
and a Tate pairing (Miller loop plus final exponentiation) on the test curve
`TinyJJ` (base field the degree-4 extension of F_13).

Modelling conventions:
- Rust `i64` values are modelled as `Int`; Rust `%` and `/` on `i64` truncate
  toward zero, so they are `Int.tmod` and `Int.tdiv`.
- `FieldElement<Mod13>` stores an `i64`; it is modelled as the stored `Int`.
- `Polynomial<FieldElement<Mod13>>` stores a coefficient vector; it is
  modelled as the stored `List Int`.
- Rust `while` loops are modelled by fuel recursion with fuel large enough
  for every terminating run; indexed vector writes are modelled by
  `List.set`, which (like the source, whenever it does not panic) only
  writes in bounds.
- Rust panics (`unwrap` of `None`, `assert!` failures) are modelled with
  `Except Err`.
-/

/-- Rust panic outcomes reachable in the pairing code: an `unwrap` of a
missing coordinate (point at infinity fed to the line function), and the
`assert!` failures in `miller_loop` and `tate_pairing`. -/
inductive Err where
  | unwrapNone : Err
  | assertFail : Err
  | assertG1 : Err
  | assertG2 : Err
deriving DecidableEq, Repr

instance : DecidableEq (Except Err (List Int)) := fun a b =>
  match a, b with
  | .ok x, .ok y =>
      if h : x = y then isTrue (by rw [h]) else isFalse (by intro hc; cases hc; exact h rfl)
  | .error x, .error y =>
      if h : x = y then isTrue (by rw [h]) else isFalse (by intro hc; cases hc; exact h rfl)
  | .ok _, .error _ => isFalse (by intro hc; cases hc)
  | .error _, .ok _ => isFalse (by intro hc; cases hc)

/-! ## Prime field `Mod13` (source: src/fields.rs, src/finite_field.rs)

`Mod13` has element type `i64`, modulus 13, and the default trait
implementations of `reduce` and `inverse` from `FiniteField`. -/

/-- `FiniteField::reduce` default implementation:
`(Self::modulus() + value) % Self::modulus()` with Rust `%` (truncated). -/
def reduce13 (v : Int) : Int := Int.tmod (13 + v) 13

/-- `FieldElement::<Mod13>::new`: stores `M::reduce(value)`. -/
def newFE13 (v : Int) : Int := reduce13 v

/-- `FieldElement` addition: `Self::new(self.0 + rhs.0)`. -/
def add13 (a b : Int) : Int := reduce13 (a + b)

/-- `FieldElement` negation: `Self::new(M::modulus() - self.0)`. -/
def neg13 (a : Int) : Int := reduce13 (13 - a)

/-- `FieldElement` subtraction: `self + -rhs`. -/
def sub13 (a b : Int) : Int := add13 a (neg13 b)

/-- `FieldElement` multiplication: `Self::new(self.0 * rhs.0)`. -/
def mul13 (a b : Int) : Int := reduce13 (a * b)

/-- Loop body of the default `FiniteField::inverse` (extended Euclid on
`(modulus, value)`): iterate while `r1 != 0`; Rust `i64` division truncates
(`Int.tdiv`). Fuel recursion: `|r1|` strictly decreases, so fuel
`|value| + 1` always reaches the loop exit. -/
def inv13Aux : Nat → Int → Int → Int → Int → Int
  | 0, _, _, t0, _ => t0
  | fuel + 1, r0, r1, t0, t1 =>
      if r1 = 0 then t0
      else
        let quotient := Int.tdiv r0 r1
        inv13Aux fuel r1 (r0 - quotient * r1) t1 (t0 - quotient * t1)

/-- Default `FiniteField::inverse` for `Mod13` followed by the final
`Self::reduce(t0)`. -/
def inv13 (v : Int) : Int := reduce13 (inv13Aux (v.natAbs + 1) 13 v 0 1)

/-- `FieldElement` division: `self * rhs.inverse()` (inverse is re-reduced by
`Self::new`, which `reduce13` already performs inside `inv13`). -/
def div13 (a b : Int) : Int := mul13 a (inv13 b)

/-! ## Polynomials over `FieldElement<Mod13>` (source: src/polynomial.rs)

The polynomial code is generic over a `Coefficient`; every claim exercises it
at `C = FieldElement<Mod13>`, whose `default()` is the zero element `0` and
whose `PartialEq` is equality of stored values. -/

/-- `Vec::rposition(|c| c != &C::default())`: index of the last non-default
coefficient. -/
def rpos : List Int → Option Nat
  | [] => none
  | c :: cs =>
      match rpos cs with
      | some i => some (i + 1)
      | none => if c ≠ 0 then some 0 else none

/-- `Polynomial::degree`: `rposition(..).unwrap_or(0)`. -/
def degreeL (l : List Int) : Nat := (rpos l).getD 0

/-- `Polynomial::new`: keep `coeffs[..=leading]` where `leading` is
`rposition(..).unwrap_or(0)` (the source panics on an empty vector; `newP`
is only used on non-empty vectors). -/
def newP (l : List Int) : List Int := l.take (degreeL l + 1)

/-- `Polynomial::leading_coefficient`: `self.coefficients()[self.degree()]`. -/
def leadL (l : List Int) : Int := l.getD (degreeL l) 0

/-- `Polynomial::is_zero`: all coefficients equal `C::default()`. -/
def isZeroP (l : List Int) : Bool := l.all (fun c => c == 0)

/-- `Polynomial` `PartialEq`: equal degrees, then zip-compare coefficients. -/
def peqP (a b : List Int) : Bool :=
  degreeL a == degreeL b && (List.zip a b).all (fun p => p.1 == p.2)

/-- First loop of `Polynomial` `Add`: `coeffs[i] = c` over `self`'s stored
coefficients. -/
def copyInto (acc : List Int) (i : Nat) : List Int → List Int
  | [] => acc
  | c :: cs => copyInto (acc.set i c) (i + 1) cs

/-- Second loop of `Polynomial` `Add`: `coeffs[i] = coeffs[i] + c` over
`other`'s stored coefficients (coefficient addition is `add13`). -/
def addInto (acc : List Int) (i : Nat) : List Int → List Int
  | [] => acc
  | c :: cs => addInto (acc.set i (add13 (acc.getD i 0) c)) (i + 1) cs

/-- `Polynomial` `Add`: allocate `max(deg, deg) + 1` defaults, copy `self`,
add `other`, canonicalize with `Polynomial::new`. -/
def addP (a b : List Int) : List Int :=
  let len := Nat.max (degreeL a) (degreeL b) + 1
  newP (addInto (copyInto (List.replicate len (0 : Int)) 0 a) 0 b)

/-- `Polynomial` `Neg`: negate every stored coefficient, canonicalize. -/
def negP (a : List Int) : List Int := newP (a.map neg13)

/-- `Polynomial` `Sub`: `self + -other`. -/
def subP (a b : List Int) : List Int := addP a (negP b)

/-- Inner loop of `Polynomial` `Mul`: `coeffs[i+j] += a * b_j` over `other`. -/
def mulAddInto (acc : List Int) (a : Int) (i : Nat) : List Int → List Int
  | [] => acc
  | b :: bs => mulAddInto (acc.set i (add13 (acc.getD i 0) (mul13 a b))) a (i + 1) bs

/-- Outer loop of `Polynomial` `Mul`: skip default coefficients of `self`. -/
def mulOuter (b : List Int) : List Int → Nat → List Int → List Int
  | [], _, acc => acc
  | a :: as_, i, acc => mulOuter b as_ (i + 1) (if a == 0 then acc else mulAddInto acc a i b)

/-- `Polynomial` `Mul`: convolution into `deg + deg + 1` slots, canonicalize. -/
def mulP (a b : List Int) : List Int :=
  newP (mulOuter b a 0 (List.replicate (degreeL a + degreeL b + 1) (0 : Int)))

/-- `Polynomial` scalar `Mul<T>`: multiply every coefficient, canonicalize. -/
def smulP (a : List Int) (s : Int) : List Int := newP (a.map (fun v => mul13 v s))

/-- Loop of `Polynomial::div_mod`: while the remainder's degree is at least
the divisor's and its leading coefficient is non-default, subtract
`(lead r / lead d) x^(deg r - deg d) * d` and extend the quotient. Fuel
recursion; for canonical field-coefficient inputs the remainder's degree
strictly decreases, so fuel `p.length + 1` reaches the loop exit. -/
def divModAux (d : List Int) : Nat → List Int → List Int → List Int × List Int
  | 0, q, r => (q, r)
  | fuel + 1, q, r =>
      if degreeL d ≤ degreeL r ∧ leadL r ≠ 0 then
        let deg := degreeL r - degreeL d
        let term := newP ((List.replicate (deg + 1) (0 : Int)).set deg (div13 (leadL r) (leadL d)))
        divModAux d fuel (addP q term) (subP r (mulP term d))
      else (q, r)

/-- `Polynomial::div_mod`: quotient starts at `Polynomial::new(vec![default])`,
remainder at `self`. -/
def divModP (p d : List Int) : List Int × List Int :=
  divModAux d (p.length + 1) (newP [0]) p

/-- `Polynomial` `Div`. -/
def divP (p d : List Int) : List Int := (divModP p d).1

/-- `Polynomial` `Rem`. -/
def remP (p d : List Int) : List Int := (divModP p d).2

/-- `FromIterator` for `Polynomial`: collects the coefficients as given,
without canonicalizing. -/
def fromIterP (l : List Int) : List Int := l

/-- `From<Vec<i64>>` for `Polynomial<FieldElement<Mod13>>`: map each entry
through `FieldElement::new` and collect (again without canonicalizing). -/
def fromVecP (l : List Int) : List Int := fromIterP (l.map newFE13)

/-! ## Extension fields `Mod13_2` / `Mod13_4` (source: src/fields.rs)

Element type `Polynomial<FieldElement<Mod13>>`; `modulus()` is an irreducible
polynomial; `inverse` is overridden with the polynomial extended Euclid
normalized by the final remainder's leading coefficient. -/

/-- `Mod13_2::modulus()`: `x^2 + 2`. -/
def mod2 : List Int := newP [2, 0, 1]

/-- `Mod13_4::modulus()`: `x^4 + 2`. -/
def mod4 : List Int := newP [2, 0, 0, 0, 1]

/-- Loop of the overridden polynomial `inverse` (`Mod13_2::inverse`,
`Mod13_4::inverse`): extended Euclid on `(modulus, value)` with polynomial
division, while `!r1.is_zero()`. Fuel recursion; the remainder's degree
strictly decreases on canonical inputs. -/
def xgcdPolyAux : Nat → List Int → List Int → List Int → List Int → List Int × List Int
  | 0, r0, _, t0, _ => (r0, t0)
  | fuel + 1, r0, r1, t0, t1 =>
      if isZeroP r1 then (r0, t0)
      else
        let quotient := divP r0 r1
        xgcdPolyAux fuel r1 (subP r0 (mulP quotient r1)) t1 (subP t0 (mulP quotient t1))

/-- The shared body of `Mod13_2::inverse` / `Mod13_4::inverse`: run the
polynomial extended Euclid, then scale `t0` by the inverse of the final
remainder's leading coefficient. -/
def invPolyMod (modulus v : List Int) : List Int :=
  let rt := xgcdPolyAux (v.length + 6) modulus v (newP [0]) (newP [1])
  smulP rt.2 (inv13 (leadL rt.1))

/-- `Mod13_2::inverse`. -/
def inv2 (v : List Int) : List Int := invPolyMod mod2 v

/-- `Mod13_4::inverse`. -/
def inv4 (v : List Int) : List Int := invPolyMod mod4 v

/-! ## `FieldElement<Mod13_4>` (source: src/field_element.rs)

`Mod13_4` keeps the default `reduce`: `(modulus + value) % modulus` with
polynomial `Add` and `Rem`. -/

/-- `Mod13_4`'s `FiniteField::reduce` (default implementation). -/
def reduce4 (v : List Int) : List Int := remP (addP mod4 v) mod4

/-- `FieldElement::<Mod13_4>::new`. -/
def newFE4 (v : List Int) : List Int := reduce4 v

/-- `FieldElement::<Mod13_4>::zero()`: `new(M::zero())`. -/
def zeroFE4 : List Int := newFE4 (newP [0])

/-- `FieldElement::<Mod13_4>::one()`: `new(M::one())`. -/
def oneFE4 : List Int := newFE4 (newP [1])

/-- `FieldElement<Mod13_4>` `is_zero`: `M::zero() == self.0` under the
polynomial `PartialEq`. -/
def isZeroFE4 (a : List Int) : Bool := peqP (newP [0]) a

/-- `FieldElement<Mod13_4>` `PartialEq` (derived): compares the stored
polynomials with the polynomial `PartialEq`. -/
def eqFE4 (a b : List Int) : Bool := peqP a b

/-- `FieldElement<Mod13_4>` addition. -/
def addFE4 (a b : List Int) : List Int := newFE4 (addP a b)

/-- `FieldElement<Mod13_4>` negation: `new(M::modulus() - self.0)`. -/
def negFE4 (a : List Int) : List Int := newFE4 (subP mod4 a)

/-- `FieldElement<Mod13_4>` subtraction: `self + -rhs`. -/
def subFE4 (a b : List Int) : List Int := addFE4 a (negFE4 b)

/-- `FieldElement<Mod13_4>` multiplication. -/
def mulFE4 (a b : List Int) : List Int := newFE4 (mulP a b)

/-- `FieldElement<Mod13_4>` inverse: `Self::new(M::inverse(&self.0))`. -/
def invFE4 (a : List Int) : List Int := newFE4 (inv4 a)

/-- `FieldElement<Mod13_4>` division: `self * rhs.inverse()`. -/
def divFE4 (a b : List Int) : List Int := mulFE4 a (invFE4 b)

/-! ## Bit decompositions (source: src/fields.rs, src/finite_field.rs)

`Mod13::to_bits_be` builds a vector of `i64::BITS - leading_zeros` bits with
`res[i] = (s >> i) & 1`, i.e. indexed from the least significant bit.
`NonExtendedField::to_bits` (used by `FieldElement::pow` and `miller_loop`)
is declared in src/finite_field.rs but its implementation for `Mod13` is not
under src/. -/

/-- Structural halving recursion computing the number of binary digits of a
natural number below `2 ^ fuel`. -/
def bitLenAux : Nat → Nat → Nat
  | 0, _ => 0
  | fuel + 1, n => if n = 0 then 0 else bitLenAux fuel (n / 2) + 1

/-- Number of binary digits of a 64-bit pattern (`0` has none); equals
`64 - leading_zeros` for the 64-bit pattern of an `i64`. -/
def bitLen (n : Nat) : Nat := bitLenAux 64 n

/-- `Mod13::to_bits_be`: entry `i` is bit `i` of the two's-complement 64-bit
pattern of `s` (arithmetic shift and mask in the source). -/
def toBitsBe (s : Int) : List Int :=
  let pat : Nat := (Int.emod s (Int.pow 2 64)).toNat
  (List.range (bitLen pat)).map (fun i => if pat.testBit i then 1 else 0)

/-- Modelled from the spec: `NonExtendedField::to_bits`, "a big-endian bit
decomposition of its element type" (src/finite_field.rs declares it; its
`Mod13` implementation is not under src/). The big-endian bit list is the
reversal of the source's `to_bits_be` table, as booleans. -/
def toBits (s : Int) : List Bool := ((toBitsBe s).map (fun b => b == 1)).reverse

/-- `FieldElement::<Mod13_4>::pow::<Mod13>`: square-and-multiply over the
big-endian bits of the exponent; exponent zero returns one. -/
def powFE4 (base : List Int) (exp : Int) : List Int :=
  if exp = 0 then oneFE4
  else
    (toBits exp).foldl
      (fun acc bit =>
        let acc := mulFE4 acc acc
        if bit then mulFE4 acc base else acc)
      oneFE4

/-! ## TinyJJ curve and affine points (source: src/curves.rs, src/elliptic_curve.rs) -/

/-- `TinyJJ::a()`: the constant polynomial 8 as a base-field element. -/
def aTJJ : List Int := newFE4 (fromVecP [8])

/-- `TinyJJ::b()`: the constant polynomial 8 as a base-field element. -/
def bTJJ : List Int := newFE4 (fromVecP [8])

/-- `TinyJJ::embedding_degree()`. -/
def kTJJ : Nat := 4

/-- `TinyJJ::r()`: the cofactor walked by the Miller loop. -/
def rTJJ : Int := 5

/-- `TinyJJ::order()`: number of points on the extended curve. -/
def orderTJJ : Int := 28800

/-- `AffinePoint<TinyJJ>`: `Infinity` or a coordinate pair of base-field
elements (stored polynomials). -/
inductive Pt where
  | inf : Pt
  | xy : List Int → List Int → Pt
deriving DecidableEq, Repr

/-- `AffinePoint::is_on_curve`: `y*y == x*x*x + a*x + b` under the
base-field `PartialEq`. -/
def isOnCurve (x y : List Int) : Bool :=
  eqFE4 (mulFE4 y y) (addFE4 (addFE4 (mulFE4 (mulFE4 x x) x) (mulFE4 aTJJ x)) bTJJ)

/-- `AffinePoint::new_xy`: the validated constructor — `XY(x, y)` when the
coordinates satisfy the curve equation, `Infinity` otherwise. -/
def newXY (x y : List Int) : Pt :=
  if isOnCurve x y then Pt.xy x y else Pt.inf

/-- `AffinePoint` `PartialEq` (derived): coordinates compared with the
base-field `PartialEq`. -/
def ptEqB : Pt → Pt → Bool
  | Pt.inf, Pt.inf => true
  | Pt.xy x1 y1, Pt.xy x2 y2 => eqFE4 x1 x2 && eqFE4 y1 y2
  | _, _ => false

/-- `AffinePoint::is_inf`: `self.xy().is_none()`. -/
def isInfB : Pt → Bool
  | Pt.inf => true
  | Pt.xy _ _ => false

/-- `AffinePoint` `Neg`: negate the `y` coordinate. -/
def negPt : Pt → Pt
  | Pt.xy x y => Pt.xy x (negFE4 y)
  | Pt.inf => Pt.inf

/-- `AffinePoint::double`: infinity and `y = 0` give infinity; otherwise the
tangent slope `(3x^2 + a) / 2y` and `new_xy(m^2 - 2x, m(x - x') - y)`. -/
def doublePt : Pt → Pt
  | Pt.xy x y =>
      if isZeroFE4 y then Pt.inf
      else
        let xPow2 := mulFE4 x x
        let m := divFE4 (addFE4 (addFE4 (addFE4 xPow2 xPow2) xPow2) aTJJ) (addFE4 y y)
        let newX := subFE4 (subFE4 (mulFE4 m m) x) x
        let newY := subFE4 (mulFE4 m (subFE4 x newX)) y
        newXY newX newY
  | Pt.inf => Pt.inf

/-- `AffinePoint` `Add`: equal operands double; inverse operands give
infinity; an infinity operand yields the other; otherwise the chord slope
formula, negating `y` through `new_xy(x, -y)`. -/
def addPt (p q : Pt) : Pt :=
  if ptEqB p q then doublePt p
  else if ptEqB p (negPt q) then Pt.inf
  else
    match p with
    | Pt.xy x1 y1 =>
        match q with
        | Pt.xy x2 y2 =>
            let m := divFE4 (subFE4 y2 y1) (subFE4 x2 x1)
            let x := subFE4 (subFE4 (mulFE4 m m) x1) x2
            let y := addFE4 y1 (mulFE4 m (subFE4 x x1))
            newXY x (negFE4 y)
        | Pt.inf => newXY x1 y1
    | Pt.inf => q

/-- `Mul` for `AffinePoint` (double-and-add): walk the big-endian bits of the
scalar (reverse of `to_bits_be`), skipping the top bit; the accumulator
starts at the point itself; infinity times any scalar is infinity. -/
def mulPt (p : Pt) (scalar : Int) : Pt :=
  match p with
  | Pt.xy x y =>
      (((toBitsBe scalar).reverse).drop 1).foldl
        (fun point bit =>
          let point := doublePt point
          if bit == 1 then addPt point (Pt.xy x y) else point)
        (Pt.xy x y)
  | Pt.inf => Pt.inf

/-- `AffinePoint::trace_map`: starting from the point itself, add
`new_xy(x^(modulus^i), y^(modulus^i))` for `i` in `1..embedding_degree`. -/
def traceMap : Pt → Pt
  | Pt.xy x y =>
      (List.range' 1 (kTJJ - 1)).foldl
        (fun point i =>
          let power : Int := Int.pow 13 i
          addPt point (newXY (powFE4 x power) (powFE4 y power)))
        (Pt.xy x y)
  | Pt.inf => Pt.inf

/-! ## Pairing (source: src/pairing.rs) -/

/-- `dist_relationship`: evaluate the line through `p` and `q` at `t`; all
three points must have coordinates (`unwrap` panics on infinity, modelled as
an error). -/
def distRel (p q t : Pt) : Except Err (List Int) :=
  match p, q, t with
  | Pt.xy x1 y1, Pt.xy x2 y2, Pt.xy xt yt =>
      .ok
        (if ¬ eqFE4 x1 x2 then
          let m := divFE4 (subFE4 y2 y1) (subFE4 x2 x1)
          subFE4 (mulFE4 m (subFE4 xt x1)) (subFE4 yt y1)
        else if eqFE4 y1 y2 then
          let xPow2 := mulFE4 x1 x1
          let m := divFE4 (addFE4 (addFE4 (addFE4 xPow2 xPow2) xPow2) aTJJ) (addFE4 y1 y1)
          subFE4 (mulFE4 m (subFE4 xt x1)) (subFE4 yt y1)
        else subFE4 xt x1)
  | _, _, _ => .error Err.unwrapNone

/-- `Pairing::is_valid_g1`: `trace_map(p) == p * k` with the embedding degree
cast into the scalar field. -/
def isValidG1 (p : Pt) : Bool := ptEqB (traceMap p) (mulPt p (Int.ofNat kTJJ))

/-- `Pairing::is_valid_g2`: `trace_map(q)` is the point at infinity. -/
def isValidG2 (q : Pt) : Bool := isInfB (traceMap q)

/-- One bit of the Miller loop: `f <- f^2 * dist(point, point, q)`, double;
on a set bit additionally `f <- f * dist(point, p, q)` and add `p`. -/
def millerStep (p q : Pt) (st : Pt × List Int) (bit : Bool) : Except Err (Pt × List Int) := do
  let point := st.1
  let f := st.2
  let fNew ← distRel point point q
  let f := mulFE4 (mulFE4 f f) fNew
  let point := doublePt point
  if bit then
    let fNew2 ← distRel point p q
    pure (addPt point p, mulFE4 f fNew2)
  else
    pure (point, f)

/-- `Pairing::miller_loop`: fold the steps over the big-endian bits of the
cofactor `r`, skipping the top bit, then `assert!(point.is_inf())`. -/
def millerLoop (p q : Pt) : Except Err (List Int) := do
  let st ← ((toBits rTJJ).drop 1).foldlM (millerStep p q) (p, oneFE4)
  if isInfB st.1 then pure st.2 else throw Err.assertFail

/-- `Pairing::final_exponentiation`: raise `f` to `(q^k - 1) / r` computed in
the scalar field's element type (`i64`, truncated division). -/
def finalExponentiation (f : List Int) : List Int :=
  powFE4 f (Int.tdiv (Int.pow 13 kTJJ - 1) rTJJ)

/-- `Pairing::tate_pairing`: assert both subgroup validity checks, then
final-exponentiate the Miller loop output. -/
def tatePairing (p q : Pt) : Except Err (List Int) := do
  if isValidG1 p then pure () else throw Err.assertG1
  if isValidG2 q then pure () else throw Err.assertG2
  let f ← millerLoop p q
  pure (finalExponentiation f)

/-! ## Concrete test data (source: src/pairing.rs tests, src/curves.rs) -/

/-- The base-field element with constant coefficient 8
(`Polynomial::from(vec![8]).into()`). -/
def x88 : List Int := newFE4 (fromVecP [8])

/-- The repository's G1 test point `(8, 8)`. -/
def pG1 : Pt := newXY x88 x88

/-- The `x`-coordinate `7 + 4x^2` of the G2 test point. -/
def xQ : List Int := newFE4 (fromVecP [7, 0, 4])

/-- The `y`-coordinate `10x + 5x^3` of the G2 test point. -/
def yQ : List Int := newFE4 (fromVecP [0, 10, 0, 5])

/-- The repository's G2 test point `(7 + 4x^2, 10x + 5x^3)`. -/
def qG2 : Pt := newXY xQ yQ

/-- The 2-torsion point `(4, 0)` of the curve (`4^3 + 8*4 + 8 = 0 mod 13`). -/
def qTor : Pt := newXY (newFE4 (fromVecP [4])) (newFE4 (fromVecP [0]))

/-- Points of the order-5 G1 subgroup generated by `(8, 8)`, paired in the
bilinearity statement. -/
def g1Pts : List Pt := [pG1, doublePt pG1]

/-- Points of the order-5 G2 subgroup generated by the G2 test point, paired
in the bilinearity statement. -/
def g2Pts : List Pt := [qG2, doublePt qG2]

/-! ## Claim-statement vocabulary -/

/-- The Frobenius-power image used by `trace_map`: both coordinates raised to
the power `modulus(ScalarField)^i`, rebuilt through `new_xy`. -/
def phiTerm (x y : List Int) (i : Nat) : Pt :=
  newXY (powFE4 x (Int.pow 13 i)) (powFE4 y (Int.pow 13 i))

/-- Modelled from the spec (claim C4's sum): `Σ_{i=1}^{k-1} φ^i(p)` taken
with the curve's own point addition, starting from the group identity. -/
def specTraceSum (x y : List Int) : Pt :=
  ((List.range' 1 (kTJJ - 1)).map (phiTerm x y)).foldl addPt Pt.inf

/-- The sum the code computes: `φ^i(p)` for `i = 1 .. k-1` accumulated with
the curve's addition starting from the point `p` itself. -/
def selfTraceSum (x y : List Int) : Pt :=
  ((List.range' 1 (kTJJ - 1)).map (phiTerm x y)).foldl addPt (Pt.xy x y)

/-- Canonical trimmed form of a stored coefficient vector: non-empty, and
either a single stored coefficient or a non-zero last coefficient. -/
def TrimmedL (l : List Int) : Prop :=
  l ≠ [] ∧ (l.length = 1 ∨ l.getD (l.length - 1) 0 ≠ 0)

/-- Every stored coefficient is a canonical residue of `Mod13`. -/
def CanonL (l : List Int) : Prop := ∀ x ∈ l, 0 ≤ x ∧ x < 13

/-- A polynomial value in the canonical form produced by `Polynomial::new`
from reduced field elements. -/
def CanonP (l : List Int) : Prop := TrimmedL l ∧ CanonL l

instance decTrimmedL (l : List Int) : Decidable (TrimmedL l) := by
  unfold TrimmedL
  infer_instance

instance decCanonL (l : List Int) : Decidable (CanonL l) := by
  unfold CanonL
  infer_instance

instance decCanonP (l : List Int) : Decidable (CanonP l) := by
  unfold CanonP
  infer_instance

/-- Did the (modelled) Rust computation return a value rather than panic? -/
def isOkE (e : Except Err (List Int)) : Bool :=
  match e with
  | .ok _ => true
  | .error _ => false

/-! ## Semantics used by the proofs: coefficients in `ZMod 13` -/

/-- The field of 13 elements used to interpret stored `Mod13` values. -/
abbrev K13 := ZMod 13

/-- Interpretation of a stored `i64` field-element value. -/
def cK (x : Int) : K13 := (x : K13)

/-- Coefficient `n` of a stored polynomial, interpreted in `K13`. -/
def coefK (l : List Int) (n : Nat) : K13 := cK (l.getD n 0)

/-- Coefficient `n` of the product of two stored polynomials (convolution in
`K13`). -/
def mulSem (a b : List Int) (n : Nat) : K13 :=
  ∑ i ∈ Finset.range (n + 1), coefK a i * coefK b (n - i)

/-- Coefficient `n` of `b` shifted up by `i` positions, interpreted in `K13`. -/
def shiftK (i : Nat) (b : List Int) (n : Nat) : K13 :=
  if i ≤ n then coefK b (n - i) else 0

set_option maxRecDepth 200000

/-! ## Basic facts about `reduce13` and the `K13` interpretation -/

theorem neg_tmod13 (a : Int) : Int.tmod (-a) 13 = -Int.tmod a 13 := by
  rw [Int.tmod_def, Int.tmod_def, Int.neg_tdiv]
  ring

theorem cK_tmod13 (x : Int) : cK (Int.tmod x 13) = cK x := by
  have h : Int.tmod x 13 = x - 13 * Int.tdiv x 13 := Int.tmod_def x 13
  have h13 : (13 : K13) = 0 := by decide
  rw [h]
  unfold cK
  push_cast
  rw [h13]
  ring

theorem cK_reduce13 (v : Int) : cK (reduce13 v) = cK v := by
  have h13 : (13 : K13) = 0 := by decide
  unfold reduce13
  rw [cK_tmod13]
  unfold cK
  push_cast
  rw [h13]
  ring

theorem cK_add13 (a b : Int) : cK (add13 a b) = cK a + cK b := by
  unfold add13
  rw [cK_reduce13]
  unfold cK
  push_cast
  ring

theorem cK_mul13 (a b : Int) : cK (mul13 a b) = cK a * cK b := by
  unfold mul13
  rw [cK_reduce13]
  unfold cK
  push_cast
  ring

theorem cK_neg13 (a : Int) : cK (neg13 a) = -cK a := by
  have h13 : (13 : K13) = 0 := by decide
  unfold neg13
  rw [cK_reduce13]
  unfold cK
  push_cast
  rw [h13]
  ring

theorem reduce13_range {v : Int} (h : 0 ≤ 13 + v) :
    0 ≤ reduce13 v ∧ reduce13 v < 13 :=
  ⟨Int.tmod_nonneg 13 h, Int.tmod_lt_of_pos (13 + v) (by norm_num)⟩

theorem reduce13_fixed_iff (w : Int) : reduce13 w = w ↔ 0 ≤ w ∧ w < 13 := by
  constructor
  · intro h
    by_cases hw : 0 ≤ 13 + w
    · have := reduce13_range hw
      omega
    · exfalso
      have hneg : reduce13 w = -Int.tmod (-(13 + w)) 13 := by
        unfold reduce13
        rw [← neg_tmod13, neg_neg]
      have h1 : 0 ≤ Int.tmod (-(13 + w)) 13 := Int.tmod_nonneg 13 (by omega)
      have h2 : Int.tmod (-(13 + w)) 13 < 13 := Int.tmod_lt_of_pos _ (by norm_num)
      omega
  · intro h
    unfold reduce13
    rw [Int.tmod_eq_emod (by omega) (by norm_num)]
    have : (13 + w) % 13 = (w + 13 * 1) % 13 := by ring_nf
    rw [this, Int.add_mul_emod_self_left, Int.emod_eq_of_lt h.1 h.2]

theorem add13_canon {a b : Int} (ha : 0 ≤ a) (hb : 0 ≤ b) :
    0 ≤ add13 a b ∧ add13 a b < 13 :=
  reduce13_range (by omega)

theorem mul13_canon {a b : Int} (ha : 0 ≤ a) (hb : 0 ≤ b) :
    0 ≤ mul13 a b ∧ mul13 a b < 13 :=
  reduce13_range (by have := mul_nonneg ha hb; omega)

theorem neg13_canon {a : Int} (ha : a ≤ 13) :
    0 ≤ neg13 a ∧ neg13 a < 13 :=
  reduce13_range (by omega)

theorem inv13_canon {v : Int} (h0 : 0 ≤ v) (h1 : v < 13) :
    0 ≤ inv13 v ∧ inv13 v < 13 := by
  interval_cases v <;> decide

theorem inv13_mul_cancel {v : Int} (h0 : 0 ≤ v) (h1 : v < 13) (hne : v ≠ 0) :
    cK (inv13 v) * cK v = 1 := by
  interval_cases v
  · exact absurd rfl hne
  all_goals decide

theorem div13_canon {a b : Int} (ha : 0 ≤ a) (hb0 : 0 ≤ b) (hb1 : b < 13) :
    0 ≤ div13 a b ∧ div13 a b < 13 :=
  mul13_canon ha (inv13_canon hb0 hb1).1

theorem cK_div13_mul_cancel {a b : Int} (hb0 : 0 ≤ b) (hb1 : b < 13)
    (hbne : cK b ≠ 0) : cK (div13 a b) * cK b = cK a := by
  have hne : b ≠ 0 := by
    intro h
    exact hbne (by rw [h]; rfl)
  unfold div13
  rw [cK_mul13, mul_assoc, inv13_mul_cancel hb0 hb1 hne, mul_one]

theorem cK_inj {a b : Int} (ha0 : 0 ≤ a) (ha1 : a < 13) (hb0 : 0 ≤ b)
    (hb1 : b < 13) (h : cK a = cK b) : a = b := by
  interval_cases a <;> interval_cases b <;> first | rfl | exact absurd h (by decide)

theorem cK_ne_zero_of_canon {a : Int} (ha0 : 0 ≤ a) (ha1 : a < 13)
    (hne : a ≠ 0) : cK a ≠ 0 := by
  intro h
  exact hne (cK_inj ha0 ha1 (by norm_num) (by norm_num) h)

/-! ## Facts about `rpos`, `degreeL`, `newP`, `TrimmedL` -/

theorem rpos_some_lt : ∀ {l : List Int} {i : Nat}, rpos l = some i → i < l.length := by
  intro l
  induction l with
  | nil => intro i h; simp [rpos] at h
  | cons c cs ih =>
      intro i h
      unfold rpos at h
      cases hcs : rpos cs with
      | some j =>
          rw [hcs] at h
          cases h
          have := ih hcs
          simp
          omega
      | none =>
          rw [hcs] at h
          by_cases hc : c ≠ 0 <;> simp [hc] at h
          subst h
          simp

theorem rpos_some_ne : ∀ {l : List Int} {i : Nat}, rpos l = some i → l.getD i 0 ≠ 0 := by
  intro l
  induction l with
  | nil => intro i h; simp [rpos] at h
  | cons c cs ih =>
      intro i h
      unfold rpos at h
      cases hcs : rpos cs with
      | some j =>
          rw [hcs] at h
          cases h
          simpa using ih hcs
      | none =>
          rw [hcs] at h
          by_cases hc : c ≠ 0 <;> simp [hc] at h
          subst h
          simpa using hc

theorem rpos_none_all : ∀ {l : List Int}, rpos l = none → ∀ j, l.getD j 0 = 0 := by
  intro l
  induction l with
  | nil => intro _ j; simp
  | cons c cs ih =>
      intro h j
      unfold rpos at h
      cases hcs : rpos cs with
      | some m => rw [hcs] at h; simp at h
      | none =>
          rw [hcs] at h
          by_cases hc : c ≠ 0 <;> simp [hc] at h ⊢
          cases j with
          | zero => simpa using hc
          | succ j => simpa using ih hcs j

theorem rpos_some_gt : ∀ {l : List Int} {i : Nat}, rpos l = some i →
    ∀ j, i < j → l.getD j 0 = 0 := by
  intro l
  induction l with
  | nil => intro i h; simp [rpos] at h
  | cons c cs ih =>
      intro i h j hij
      unfold rpos at h
      cases hcs : rpos cs with
      | some m =>
          rw [hcs] at h
          cases h
          cases j with
          | zero => omega
          | succ j => simpa using ih hcs j (by omega)
      | none =>
          rw [hcs] at h
          by_cases hc : c ≠ 0 <;> simp [hc] at h
          subst h
          cases j with
          | zero => omega
          | succ j => simpa using rpos_none_all hcs j

theorem getD_of_degreeL_lt {l : List Int} {n : Nat} (h : degreeL l < n) :
    l.getD n 0 = 0 := by
  unfold degreeL at h
  cases hr : rpos l with
  | some i =>
      rw [hr] at h
      exact rpos_some_gt hr n (by simpa using h)
  | none => exact rpos_none_all hr n

theorem le_degreeL_of_getD_ne {l : List Int} {n : Nat} (h : l.getD n 0 ≠ 0) :
    n ≤ degreeL l := by
  by_contra hc
  exact h (getD_of_degreeL_lt (by omega))

theorem degreeL_lt_length {l : List Int} (h : l ≠ []) : degreeL l < l.length := by
  unfold degreeL
  cases hr : rpos l with
  | some i => simpa using rpos_some_lt hr
  | none =>
      simp only [Option.getD]
      cases l with
      | nil => exact absurd rfl h
      | cons c cs => simp

theorem getD_eq_zero_of_length_le {l : List Int} {n : Nat} (h : l.length ≤ n) :
    l.getD n 0 = 0 := by
  rw [List.getD_eq_getElem?_getD, List.getElem?_eq_none (by omega)]
  rfl

theorem newP_getD (l : List Int) (n : Nat) :
    (newP l).getD n 0 = if n ≤ degreeL l then l.getD n 0 else 0 := by
  unfold newP
  by_cases h : n ≤ degreeL l
  · rw [if_pos h, List.getD_eq_getElem?_getD, List.getElem?_take, if_pos (by omega),
      ← List.getD_eq_getElem?_getD]
  · rw [if_neg h, List.getD_eq_getElem?_getD, List.getElem?_take, if_neg (by omega)]
    rfl

theorem coefK_newP (l : List Int) (n : Nat) : coefK (newP l) n = coefK l n := by
  unfold coefK
  rw [newP_getD]
  by_cases h : n ≤ degreeL l
  · rw [if_pos h]
  · rw [if_neg h, getD_of_degreeL_lt (by omega)]

theorem newP_length {l : List Int} (h : l ≠ []) : (newP l).length = degreeL l + 1 := by
  unfold newP
  rw [List.length_take]
  have := degreeL_lt_length h
  omega

theorem trimmed_newP {l : List Int} (h : l ≠ []) : TrimmedL (newP l) := by
  have hlen := newP_length h
  refine ⟨?_, ?_⟩
  · intro hc
    rw [hc] at hlen
    simp at hlen
  · cases hr : rpos l with
    | some i =>
        have hdeg : degreeL l = i := by unfold degreeL; rw [hr]; rfl
        right
        rw [hlen, hdeg]
        simp only [Nat.add_sub_cancel]
        have hget : (newP l).getD i 0 = l.getD i 0 := by
          rw [newP_getD, if_pos (by rw [hdeg])]
        rw [hget]
        exact rpos_some_ne hr
    | none =>
        have hdeg : degreeL l = 0 := by unfold degreeL; rw [hr]; rfl
        left
        rw [hlen, hdeg]

theorem trimmed_length {l : List Int} (h : TrimmedL l) : l.length = degreeL l + 1 := by
  obtain ⟨hne, hl⟩ := h
  have hlt := degreeL_lt_length hne
  rcases hl with h1 | h2
  · omega
  · have := le_degreeL_of_getD_ne h2
    omega

theorem trimmed_lead {l : List Int} (h : TrimmedL l) (hz : isZeroP l = false) :
    leadL l ≠ 0 ∧ 0 < l.length := by
  obtain ⟨hne, hl⟩ := h
  have hlen : 0 < l.length := by
    cases l with
    | nil => exact absurd rfl hne
    | cons c cs => simp
  refine ⟨?_, hlen⟩
  rcases hl with h1 | h2
  · cases l with
    | nil => exact absurd rfl hne
    | cons c cs =>
        have hcs : cs = [] := by simpa using h1
        subst hcs
        have hc : c ≠ 0 := by simpa [isZeroP] using hz
        have hlead : leadL [c] = c := by simp [leadL, degreeL, rpos, hc]
        rw [hlead]
        exact hc
  · have hle := le_degreeL_of_getD_ne h2
    have hlt := degreeL_lt_length hne
    have hdeg : degreeL l = l.length - 1 := by omega
    unfold leadL
    rw [hdeg]
    exact h2

theorem isZeroP_getD {l : List Int} (h : isZeroP l = true) (n : Nat) :
    l.getD n 0 = 0 := by
  unfold isZeroP at h
  rw [List.all_eq_true] at h
  by_cases hn : n < l.length
  · have hx : l.getD n 0 = l[n] := by
      rw [List.getD_eq_getElem?_getD, List.getElem?_eq_getElem hn]
      rfl
    rw [hx]
    have := h l[n] (List.getElem_mem hn)
    simpa using this
  · exact getD_eq_zero_of_length_le (by omega)

theorem zip_self_all (l : List Int) :
    (List.zip l l).all (fun p => p.1 == p.2) = true := by
  induction l with
  | nil => rfl
  | cons c cs ih => simpa using ih

theorem peqP_self (l : List Int) : peqP l l = true := by
  unfold peqP
  rw [Bool.and_eq_true]
  exact ⟨by simp, zip_self_all l⟩

theorem peqP_of_eq {a b : List Int} (h : a = b) : peqP a b = true := by
  subst h
  exact peqP_self a

/-! ## Claim theorems: error handling and invariants of the field backends -/

/-- C3: the claim says inverting the zero element must fail with an explicit
invalid-operation error; the code instead silently returns the zero element,
both in the default integer extended-Euclidean `inverse` (`Mod13`) and in
the polynomial extension-field overrides (`Mod13_2`, `Mod13_4`): with
`r1 = 0` the Euclidean loop exits immediately and `t0 = 0` is returned. -/
theorem c3_inverse_zero_silently_returns_zero :
    inv13 0 = 0 ∧ inv2 (newP [0]) = newP [0] ∧ inv4 (newP [0]) = newP [0] := by
  decide

/-- C6 counterexample: `FieldElement::<Mod13>::new(-20)` stores `-7`
(Rust `%` truncates toward zero), and `-7` is not a fixed point of
`Mod13::reduce`, contradicting the claim that `new` always stores a value
`w` with `w == M::reduce(w)`. -/
theorem c6_counterexample_new_not_reduced :
    newFE13 (-20) = -7 ∧ reduce13 (newFE13 (-20)) ≠ newFE13 (-20) := by decide

/-- C6 (amended): for the integer prime-field backend, `new(v)` stores a fixed
point of `reduce` whenever `modulus + v` is non-negative and fits in `i64`
(in the source the sum `modulus + value` is computed in `i64`, so values
within `modulus` of `i64::MAX` are outside the program's behaviour); for
`v < -modulus` (within `i64`) Rust's truncating `%` makes the stored value
non-positive: it is `0` — still a fixed point — exactly when `v` is a
multiple of the modulus, and otherwise a negative value that is not a fixed
point of `reduce`; and every arithmetic operation on reduced operands
returns a reduced result. -/
theorem c6_reduced_closure :
    (∀ v : Int, 0 ≤ 13 + v → 13 + v < 2 ^ 63 →
      reduce13 (newFE13 v) = newFE13 v) ∧
    (∀ v : Int, -2 ^ 63 ≤ v → 13 + v < 0 →
      ((13 : Int) ∣ v → newFE13 v = 0 ∧ reduce13 (newFE13 v) = newFE13 v) ∧
      (¬ ((13 : Int) ∣ v) →
        newFE13 v < 0 ∧ reduce13 (newFE13 v) ≠ newFE13 v)) ∧
    (∀ a b : Int, reduce13 a = a → reduce13 b = b →
      reduce13 (add13 a b) = add13 a b ∧
      reduce13 (sub13 a b) = sub13 a b ∧
      reduce13 (mul13 a b) = mul13 a b ∧
      reduce13 (div13 a b) = div13 a b ∧
      reduce13 (neg13 a) = neg13 a) := by
  refine ⟨?_, ?_, ?_⟩
  · intro v hv _
    exact (reduce13_fixed_iff (newFE13 v)).2 (reduce13_range hv)
  · intro v _ hneg
    have e1 : Int.tmod (13 + v) 13 = -Int.tmod (-(13 + v)) 13 := by
      rw [← neg_tmod13, neg_neg]
    have e2 : Int.tmod (-(13 + v)) 13 = -(13 + v) % 13 :=
      Int.tmod_eq_emod (by omega) (by norm_num)
    have h1 : 0 ≤ -(13 + v) % 13 := Int.emod_nonneg _ (by norm_num)
    have h2 : -(13 + v) % 13 < 13 := Int.emod_lt_of_pos _ (by norm_num)
    have hdef : newFE13 v = Int.tmod (13 + v) 13 := rfl
    constructor
    · intro hd
      have h0 : newFE13 v = 0 := by
        rw [hdef, e1, e2]
        omega
      exact ⟨h0, by rw [h0]; decide⟩
    · intro hnd
      have hval : -13 < newFE13 v ∧ newFE13 v < 0 := by
        rw [hdef, e1, e2]
        omega
      have e3 : reduce13 (newFE13 v) = (13 + newFE13 v) % 13 := by
        unfold reduce13
        exact Int.tmod_eq_emod (by omega) (by norm_num)
      refine ⟨hval.2, ?_⟩
      rw [e3]
      omega
  · intro a b ha hb
    have ha2 := (reduce13_fixed_iff a).1 ha
    have hb2 := (reduce13_fixed_iff b).1 hb
    refine ⟨?_, ?_, ?_, ?_, ?_⟩ <;> rw [reduce13_fixed_iff]
    · exact add13_canon ha2.1 hb2.1
    · exact add13_canon ha2.1 (neg13_canon (by omega)).1
    · exact mul13_canon ha2.1 hb2.1
    · exact div13_canon ha2.1 hb2.1 hb2.2
    · exact neg13_canon (by omega)

theorem c6_reduced_closure_witness :
    reduce13 (newFE13 (-5)) = newFE13 (-5) ∧
    newFE13 (-26) = 0 ∧
    (newFE13 (-20) < 0 ∧ reduce13 (newFE13 (-20)) ≠ newFE13 (-20)) ∧
    reduce13 (add13 7 10) = add13 7 10 :=
  ⟨c6_reduced_closure.1 (-5) (by decide) (by decide),
   ((c6_reduced_closure.2.1 (-26) (by decide) (by decide)).1 (by decide)).1,
   (c6_reduced_closure.2.1 (-20) (by decide) (by decide)).2 (by decide),
   (c6_reduced_closure.2.2 7 10 (by decide) (by decide)).1⟩

/-! ## Claim theorems: point construction and scalar multiplication -/

/-- C9: `new_xy(x, y)` returns `XY(x, y)` exactly when the coordinates
satisfy the curve equation `y^2 = x^3 + a x + b`, and the `Infinity` point
otherwise; it is a total function (no error path). -/
theorem c9_new_xy_guard :
    ∀ x y : List Int,
      (isOnCurve x y = true ∧ newXY x y = Pt.xy x y) ∨
      (isOnCurve x y = false ∧ newXY x y = Pt.inf) := by
  intro x y
  by_cases h : isOnCurve x y = true
  · exact Or.inl ⟨h, by unfold newXY; rw [if_pos h]⟩
  · have hf : isOnCurve x y = false := by simpa using h
    exact Or.inr ⟨hf, by unfold newXY; rw [if_neg h]⟩

/-- C10: the bit decomposition of the scalar zero is empty, so the
double-and-add loop body never runs and scalar multiplication by zero
returns the (non-infinity) point unchanged, while `Infinity` times any
scalar is `Infinity`. -/
theorem c10_scalar_zero_returns_point :
    (∀ x y : List Int, mulPt (Pt.xy x y) 0 = Pt.xy x y) ∧
    (∀ n : Int, mulPt Pt.inf n = Pt.inf) :=
  ⟨fun _ _ => rfl, fun _ => rfl⟩

/-! ## Claim theorems: trace map -/

/-- C4 counterexample: at the on-curve point `(8, 8)` the code's `trace_map`
differs from the claimed sum `Σ_{i=1}^{k-1} φ^i(p)` (the code's accumulator
starts at `p` itself, adding an extra `φ^0` term). -/
theorem c4_counterexample_trace_sum :
    isOnCurve x88 x88 = true ∧ traceMap (Pt.xy x88 x88) ≠ specTraceSum x88 x88 := by
  decide

/-- C4 (amended): for every non-infinity point, `trace_map(p)` is the sum of
the Frobenius-power images `φ^i(p)` for `i = 1 .. k-1` taken with the
curve's own addition and *started from the point `p` itself* (an extra
`φ^0 = id` term relative to the claim); `trace_map(Infinity)` is
`Infinity`. -/
theorem c4_trace_map_is_self_started_sum :
    (∀ x y : List Int, traceMap (Pt.xy x y) = selfTraceSum x y) ∧
    traceMap Pt.inf = Pt.inf :=
  ⟨fun _ _ => rfl, rfl⟩

/-! ## Claim theorems: canonical trimmed form of polynomials -/

theorem copyInto_length (l : List Int) :
    ∀ (acc : List Int) (i : Nat), (copyInto acc i l).length = acc.length := by
  induction l with
  | nil => intro acc i; rfl
  | cons c cs ih =>
      intro acc i
      unfold copyInto
      rw [ih, List.length_set]

theorem addInto_length (l : List Int) :
    ∀ (acc : List Int) (i : Nat), (addInto acc i l).length = acc.length := by
  induction l with
  | nil => intro acc i; rfl
  | cons c cs ih =>
      intro acc i
      unfold addInto
      rw [ih, List.length_set]

theorem mulAddInto_length (l : List Int) :
    ∀ (acc : List Int) (a : Int) (i : Nat), (mulAddInto acc a i l).length = acc.length := by
  induction l with
  | nil => intro acc a i; rfl
  | cons c cs ih =>
      intro acc a i
      unfold mulAddInto
      rw [ih, List.length_set]

theorem mulOuter_length (b : List Int) :
    ∀ (l : List Int) (i : Nat) (acc : List Int), (mulOuter b l i acc).length = acc.length := by
  intro l
  induction l with
  | nil => intro i acc; rfl
  | cons a as_ ih =>
      intro i acc
      unfold mulOuter
      rw [ih]
      by_cases h : a == 0 <;> simp [h, mulAddInto_length]

theorem addP_arg_ne_nil (a b : List Int) :
    addInto (copyInto (List.replicate (max (degreeL a) (degreeL b) + 1) (0 : Int)) 0 a) 0 b ≠
      [] := by
  intro h
  have := addInto_length b (copyInto (List.replicate (max (degreeL a) (degreeL b) + 1) (0 : Int)) 0 a) 0
  rw [h] at this
  simp [copyInto_length] at this

theorem trimmed_addP (a b : List Int) : TrimmedL (addP a b) :=
  trimmed_newP (addP_arg_ne_nil a b)

theorem trimmed_subP (a b : List Int) : TrimmedL (subP a b) :=
  trimmed_addP a (negP b)

theorem trimmed_mulP (a b : List Int) : TrimmedL (mulP a b) := by
  apply trimmed_newP
  intro h
  have := mulOuter_length b a 0 (List.replicate (degreeL a + degreeL b + 1) (0 : Int))
  rw [h] at this
  simp at this

theorem trimmed_negP {a : List Int} (h : a ≠ []) : TrimmedL (negP a) := by
  apply trimmed_newP
  simpa using h

theorem trimmed_smulP {a : List Int} (h : a ≠ []) (s : Int) : TrimmedL (smulP a s) := by
  apply trimmed_newP
  simpa using h

theorem divModAux_trimmed (d : List Int) :
    ∀ (fuel : Nat) (q r : List Int), TrimmedL q → TrimmedL r →
      TrimmedL (divModAux d fuel q r).1 ∧ TrimmedL (divModAux d fuel q r).2 := by
  intro fuel
  induction fuel with
  | zero => intro q r hq hr; exact ⟨hq, hr⟩
  | succ n ih =>
      intro q r hq hr
      unfold divModAux
      by_cases h : degreeL d ≤ degreeL r ∧ leadL r ≠ 0
      · rw [if_pos h]
        exact ih _ _ (trimmed_addP _ _) (trimmed_subP _ _)
      · rw [if_neg h]
        exact ⟨hq, hr⟩

theorem trimmed_newP_zero : TrimmedL (newP [0]) := trimmed_newP (by simp)

/-- C7 counterexample: the `FromIterator`/`From<Vec<_>>` construction path
stores the coefficients exactly as given, so `Polynomial::from(vec![1, 0])`
keeps a trailing zero coefficient and is not in canonical trimmed form. -/
theorem c7_counterexample_from_iter_untrimmed :
    fromVecP [1, 0] = [1, 0] ∧ ¬ TrimmedL (fromVecP [1, 0]) := by decide

/-- C7 (amended): `Polynomial::new` (on a non-empty coefficient list) and all
arithmetic operations produce canonical trimmed polynomials (for `rem` and
the negation/scalar paths, given well-formed operands); the
iterator/vector conversion path, however, stores coefficients as given and
does not canonicalize. -/
theorem c7_trimmed_construction :
    (∀ l : List Int, l ≠ [] → TrimmedL (newP l)) ∧
    (∀ a b : List Int, TrimmedL (addP a b) ∧ TrimmedL (subP a b) ∧ TrimmedL (mulP a b)) ∧
    (∀ a : List Int, a ≠ [] → TrimmedL (negP a) ∧ ∀ s : Int, TrimmedL (smulP a s)) ∧
    (∀ p d : List Int, TrimmedL p → TrimmedL (divP p d) ∧ TrimmedL (remP p d)) := by
  refine ⟨fun l h => trimmed_newP h, fun a b => ⟨trimmed_addP a b, trimmed_subP a b, trimmed_mulP a b⟩,
    fun a h => ⟨trimmed_negP h, fun s => trimmed_smulP h s⟩, fun p d hp => ?_⟩
  exact divModAux_trimmed d (p.length + 1) (newP [0]) p trimmed_newP_zero hp

theorem c7_trimmed_construction_witness :
    TrimmedL (newP [0, 0, 3]) ∧ TrimmedL (negP [5]) ∧ TrimmedL (remP [3, 5] [6]) :=
  ⟨c7_trimmed_construction.1 [0, 0, 3] (by decide),
   (c7_trimmed_construction.2.2.1 [5] (by decide)).1,
   (c7_trimmed_construction.2.2.2 [3, 5] [6] (by decide)).2⟩

/-! ## Claim theorems: Miller loop postcondition -/

theorem mulPt_five (x y : List Int) :
    mulPt (Pt.xy x y) rTJJ = addPt (doublePt (doublePt (Pt.xy x y))) (Pt.xy x y) := rfl

theorem addPt_inf_left (q : Pt) : addPt Pt.inf q = q := by
  cases q <;> rfl

theorem miller_err1 {x y xq yq : List Int} (h : doublePt (Pt.xy x y) = Pt.inf) :
    millerLoop (Pt.xy x y) (Pt.xy xq yq) = .error Err.unwrapNone := by
  have hbits : (toBits rTJJ).drop 1 = [false, true] := rfl
  unfold millerLoop
  rw [hbits]
  simp only [List.foldlM_cons, List.foldlM_nil]
  unfold millerStep
  simp only [distRel, h]
  rfl

theorem miller_err2 {x y a b xq yq : List Int} (h1 : doublePt (Pt.xy x y) = Pt.xy a b)
    (h2 : doublePt (Pt.xy a b) = Pt.inf) :
    millerLoop (Pt.xy x y) (Pt.xy xq yq) = .error Err.unwrapNone := by
  have hbits : (toBits rTJJ).drop 1 = [false, true] := rfl
  unfold millerLoop
  rw [hbits]
  simp only [List.foldlM_cons, List.foldlM_nil]
  unfold millerStep
  simp [distRel, h1, h2, Bind.bind, Except.bind, Pure.pure, Except.pure]

theorem miller_ok {x y a b c d xq yq : List Int} (h1 : doublePt (Pt.xy x y) = Pt.xy a b)
    (h2 : doublePt (Pt.xy a b) = Pt.xy c d) :
    (isInfB (addPt (Pt.xy c d) (Pt.xy x y)) = true →
      ∃ f, millerLoop (Pt.xy x y) (Pt.xy xq yq) = .ok f) ∧
    (isInfB (addPt (Pt.xy c d) (Pt.xy x y)) = false →
      millerLoop (Pt.xy x y) (Pt.xy xq yq) = .error Err.assertFail) := by
  have hbits : (toBits rTJJ).drop 1 = [false, true] := rfl
  constructor
  · intro hinf
    exact ⟨_, by
      unfold millerLoop
      rw [hbits]
      simp only [List.foldlM_cons, List.foldlM_nil]
      unfold millerStep
      simp [distRel, h1, h2, hinf, Bind.bind, Except.bind, Pure.pure, Except.pure]
      rfl⟩
  · intro hinf
    unfold millerLoop
    rw [hbits]
    simp only [List.foldlM_cons, List.foldlM_nil]
    unfold millerStep
    simp [distRel, h1, h2, hinf, Bind.bind, Except.bind, Pure.pure, Except.pure, throw,
      throwThe, MonadExceptOf.throw]

/-- C5 (amended): for non-infinity points `p` and `q`, if `p * r` is the
point at infinity the Miller loop's final assertion never fires and the
accumulated field value is returned; if `p * r` is not infinity the call
fails — by the final assertion, or by an earlier coordinate `unwrap` when an
intermediate accumulator point hits infinity — and returns no value. (For an
infinity input the line function's `unwrap` fails before the assertion, which
is what refutes the claim as stated.) -/
theorem c5_miller_postcondition :
    ∀ x y xq yq : List Int,
      (mulPt (Pt.xy x y) rTJJ = Pt.inf →
        isOkE (millerLoop (Pt.xy x y) (Pt.xy xq yq)) = true) ∧
      (mulPt (Pt.xy x y) rTJJ ≠ Pt.inf →
        isOkE (millerLoop (Pt.xy x y) (Pt.xy xq yq)) = false) := by
  intro x y xq yq
  have hmul := mulPt_five x y
  have hinfd : doublePt Pt.inf = Pt.inf := rfl
  cases hd1 : doublePt (Pt.xy x y) with
  | inf =>
      have hne : mulPt (Pt.xy x y) rTJJ ≠ Pt.inf := by
        rw [hmul, hd1, hinfd, addPt_inf_left]
        simp
      exact ⟨fun h => absurd h hne, fun _ => by rw [miller_err1 hd1]; rfl⟩
  | xy a b =>
      cases hd2 : doublePt (Pt.xy a b) with
      | inf =>
          have hne : mulPt (Pt.xy x y) rTJJ ≠ Pt.inf := by
            rw [hmul, hd1, hd2, addPt_inf_left]
            simp
          exact ⟨fun h => absurd h hne, fun _ => by rw [miller_err2 hd1 hd2]; rfl⟩
      | xy c d =>
          constructor
          · intro h
            have hinf : isInfB (addPt (Pt.xy c d) (Pt.xy x y)) = true := by
              rw [hmul, hd1, hd2] at h
              rw [h]
              rfl
            obtain ⟨f, hf⟩ := (@miller_ok x y a b c d xq yq hd1 hd2).1 hinf
            rw [hf]
            rfl
          · intro h
            have hinf : isInfB (addPt (Pt.xy c d) (Pt.xy x y)) = false := by
              rw [hmul, hd1, hd2] at h
              cases ha : addPt (Pt.xy c d) (Pt.xy x y) with
              | inf => exact absurd ha h
              | xy u v => rfl
            rw [(@miller_ok x y a b c d xq yq hd1 hd2).2 hinf]
            rfl

/-- C5 counterexample: the point at infinity satisfies the claim's
precondition (`Infinity * r = Infinity`), yet `miller_loop` does not return
the accumulated value: the line function's coordinate `unwrap` panics
before the assertion is ever reached. -/
theorem c5_counterexample_infinity_point :
    mulPt Pt.inf rTJJ = Pt.inf ∧ millerLoop Pt.inf qG2 = .error Err.unwrapNone := by
  constructor
  · rfl
  · decide

theorem c5_miller_postcondition_witness :
    isOkE (millerLoop (Pt.xy x88 x88) (Pt.xy xQ yQ)) = true ∧
    isOkE (millerLoop (Pt.xy (newFE4 (fromVecP [4])) (newFE4 (fromVecP [0]))) (Pt.xy xQ yQ)) =
      false :=
  ⟨(c5_miller_postcondition x88 x88 xQ yQ).1 (by decide),
   (c5_miller_postcondition (newFE4 (fromVecP [4])) (newFE4 (fromVecP [0])) xQ yQ).2 (by decide)⟩

/-! ## Semantic lemmas for the polynomial operations -/

theorem cK_zero : cK 0 = 0 := by simp [cK]

theorem coefK_zero_of_getD {l : List Int} {n : Nat} (h : l.getD n 0 = 0) :
    coefK l n = 0 := by
  unfold coefK
  rw [h]
  exact cK_zero

theorem getD_set (l : List Int) (i n : Nat) (v : Int) :
    (l.set i v).getD n 0 = if i = n ∧ i < l.length then v else l.getD n 0 := by
  rw [List.getD_eq_getElem?_getD, List.getD_eq_getElem?_getD, List.getElem?_set]
  by_cases h1 : i = n
  · subst h1
    by_cases h2 : i < l.length
    · simp [h2]
    · simp [h2, List.getElem?_eq_none (by omega : l.length ≤ i)]
  · simp [h1]

theorem getD_replicate (L n : Nat) : (List.replicate L (0 : Int)).getD n 0 = 0 := by
  rw [List.getD_eq_getElem?_getD, List.getElem?_replicate]
  by_cases h : n < L <;> simp [h]

theorem copyInto_getD (l : List Int) :
    ∀ (acc : List Int) (i n : Nat),
      (copyInto acc i l).getD n 0 =
        if i ≤ n ∧ n - i < l.length ∧ n < acc.length then l.getD (n - i) 0
        else acc.getD n 0 := by
  induction l with
  | nil =>
      intro acc i n
      simp [copyInto]
  | cons c cs ih =>
      intro acc i n
      unfold copyInto
      rw [ih, List.length_set]
      by_cases hn : n < acc.length
      · by_cases h1 : i = n
        · subst h1
          rw [if_neg (by omega), getD_set, if_pos ⟨rfl, hn⟩, if_pos ⟨le_refl i, by simp, hn⟩]
          simp
        · by_cases h2 : i + 1 ≤ n ∧ n - (i + 1) < cs.length
          · rw [if_pos ⟨h2.1, h2.2, hn⟩, if_pos ⟨by omega, by simp; omega, hn⟩]
            have : n - i = (n - (i + 1)) + 1 := by omega
            rw [this, List.getD_cons_succ]
          · rw [if_neg (by intro hc; exact h2 ⟨by omega, by omega⟩),
              if_neg (by intro hc; simp at hc; omega), getD_set, if_neg (by intro hc; omega)]
      · rw [if_neg (by omega), if_neg (by omega), getD_set, if_neg (by intro hc; omega)]

theorem addInto_getD (l : List Int) :
    ∀ (acc : List Int) (i n : Nat),
      (addInto acc i l).getD n 0 =
        if i ≤ n ∧ n - i < l.length ∧ n < acc.length then
          add13 (acc.getD n 0) (l.getD (n - i) 0)
        else acc.getD n 0 := by
  induction l with
  | nil =>
      intro acc i n
      simp [addInto]
  | cons c cs ih =>
      intro acc i n
      unfold addInto
      rw [ih, List.length_set]
      by_cases hn : n < acc.length
      · by_cases h1 : i = n
        · subst h1
          rw [if_neg (by omega), getD_set, if_pos ⟨rfl, hn⟩, if_pos ⟨le_refl i, by simp, hn⟩]
          simp
        · by_cases h2 : i + 1 ≤ n ∧ n - (i + 1) < cs.length
          · rw [if_pos ⟨h2.1, h2.2, hn⟩, if_pos ⟨by omega, by simp; omega, hn⟩,
              getD_set, if_neg (by intro hc; omega)]
            have : n - i = (n - (i + 1)) + 1 := by omega
            rw [this, List.getD_cons_succ]
          · rw [if_neg (by intro hc; exact h2 ⟨by omega, by omega⟩),
              if_neg (by intro hc; simp at hc; omega), getD_set, if_neg (by intro hc; omega)]
      · rw [if_neg (by omega), if_neg (by omega), getD_set, if_neg (by intro hc; omega)]

theorem canon_getD {l : List Int} (h : CanonL l) (n : Nat) :
    0 ≤ l.getD n 0 ∧ l.getD n 0 < 13 := by
  by_cases hn : n < l.length
  · have hx : l.getD n 0 = l[n] := by
      rw [List.getD_eq_getElem?_getD, List.getElem?_eq_getElem hn]
      rfl
    rw [hx]
    exact h l[n] (List.getElem_mem hn)
  · rw [getD_eq_zero_of_length_le (by omega)]
    norm_num

theorem coefK_addP (a b : List Int) (n : Nat) :
    coefK (addP a b) n = coefK a n + coefK b n := by
  unfold addP
  rw [coefK_newP]
  have hgda : degreeL a < max (degreeL a) (degreeL b) + 1 := by omega
  have hgdb : degreeL b < max (degreeL a) (degreeL b) + 1 := by omega
  generalize hL : max (degreeL a) (degreeL b) + 1 = L at hgda hgdb
  have hM : (copyInto (List.replicate L (0 : Int)) 0 a).getD n 0 =
      if n < a.length ∧ n < L then a.getD n 0 else 0 := by
    rw [copyInto_getD, List.length_replicate]
    simp only [Nat.sub_zero, Nat.zero_le, true_and]
    by_cases h : n < a.length ∧ n < L
    · rw [if_pos h, if_pos h]
    · rw [if_neg h, if_neg h, getD_replicate]
  unfold coefK
  rw [addInto_getD, copyInto_length, List.length_replicate]
  simp only [Nat.sub_zero, Nat.zero_le, true_and]
  by_cases hb : n < b.length ∧ n < L
  · rw [if_pos hb, cK_add13, hM]
    by_cases ha : n < a.length ∧ n < L
    · rw [if_pos ha]
    · have haz : a.getD n 0 = 0 := by
        rcases Nat.lt_or_ge n a.length with h1 | h1
        · exact absurd ⟨h1, hb.2⟩ ha
        · exact getD_eq_zero_of_length_le h1
      rw [if_neg ha, haz]
  · rw [if_neg hb, hM]
    by_cases hnL : n < L
    · have hbz : b.getD n 0 = 0 := by
        rcases Nat.lt_or_ge n b.length with h1 | h1
        · exact absurd ⟨h1, hnL⟩ hb
        · exact getD_eq_zero_of_length_le h1
      rw [hbz, cK_zero]
      by_cases ha : n < a.length
      · rw [if_pos ⟨ha, hnL⟩]
        ring
      · rw [if_neg (fun hc => ha hc.1), getD_eq_zero_of_length_le (by omega), cK_zero]
        ring
    · have haz : a.getD n 0 = 0 := getD_of_degreeL_lt (by omega)
      have hbz : b.getD n 0 = 0 := getD_of_degreeL_lt (by omega)
      rw [if_neg (fun hc => hnL hc.2), haz, hbz]
      simp [cK_zero]

theorem coefK_negP (a : List Int) (n : Nat) : coefK (negP a) n = -coefK a n := by
  unfold negP
  rw [coefK_newP]
  unfold coefK
  rw [List.getD_eq_getElem?_getD, List.getElem?_map]
  by_cases h : n < a.length
  · rw [List.getElem?_eq_getElem h]
    have hx : a.getD n 0 = a[n] := by
      rw [List.getD_eq_getElem?_getD, List.getElem?_eq_getElem h]
      rfl
    rw [hx]
    simpa using cK_neg13 a[n]
  · rw [List.getElem?_eq_none (by omega), getD_eq_zero_of_length_le (by omega)]
    simp [cK_zero]

theorem coefK_subP (a b : List Int) (n : Nat) :
    coefK (subP a b) n = coefK a n - coefK b n := by
  unfold subP
  rw [coefK_addP, coefK_negP]
  ring

theorem shiftK_cons (i n : Nat) (b : Int) (bs : List Int) :
    shiftK i (b :: bs) n = (if n = i then cK b else 0) + shiftK (i + 1) bs n := by
  unfold shiftK coefK
  rcases Nat.lt_trichotomy n i with h | h | h
  · rw [if_neg (by omega), if_neg (by omega), if_neg (by omega)]
    simp
  · subst h
    rw [if_pos (le_refl n), if_pos rfl, if_neg (by omega)]
    simp
  · rw [if_pos (by omega), if_neg (by omega), if_pos (by omega)]
    have : n - i = (n - (i + 1)) + 1 := by omega
    rw [this, List.getD_cons_succ]
    ring

theorem coefK_mulAddInto (l : List Int) :
    ∀ (acc : List Int) (v : Int) (i n : Nat), i + l.length ≤ acc.length →
      coefK (mulAddInto acc v i l) n = coefK acc n + cK v * shiftK i l n := by
  induction l with
  | nil =>
      intro acc v i n hlen
      unfold mulAddInto shiftK
      by_cases h : i ≤ n <;> simp [h, coefK, cK_zero]
  | cons b bs ih =>
      intro acc v i n hlen
      unfold mulAddInto
      simp only [List.length_cons] at hlen
      have hset : (acc.set i (add13 (acc.getD i 0) (mul13 v b))).length = acc.length :=
        List.length_set acc i _
      rw [ih (acc.set i (add13 (acc.getD i 0) (mul13 v b))) v (i + 1) n (by omega),
        shiftK_cons]
      unfold coefK
      rw [getD_set]
      by_cases h : i = n
      · subst h
        rw [if_pos ⟨rfl, by omega⟩, if_pos rfl, cK_add13, cK_mul13]
        ring
      · rw [if_neg (fun hc => h hc.1), if_neg (fun hc => h hc.symm)]
        ring

theorem coefK_mulOuter (b : List Int) :
    ∀ (l : List Int) (i : Nat) (acc : List Int) (n : Nat),
      i + l.length + b.length ≤ acc.length + 1 →
      coefK (mulOuter b l i acc) n =
        coefK acc n + ∑ j ∈ Finset.range l.length, cK (l.getD j 0) * shiftK (i + j) b n := by
  intro l
  induction l with
  | nil =>
      intro i acc n hlen
      unfold mulOuter
      simp
  | cons a as_ ih =>
      intro i acc n hlen
      unfold mulOuter
      simp only [List.length_cons] at hlen ⊢
      have hsum : ∑ j ∈ Finset.range (as_.length + 1), cK ((a :: as_).getD j 0) * shiftK (i + j) b n =
          (∑ j ∈ Finset.range as_.length, cK (as_.getD j 0) * shiftK (i + 1 + j) b n) +
            cK a * shiftK i b n := by
        rw [Finset.sum_range_succ']
        simp only [List.getD_cons_succ, List.getD_cons_zero, Nat.add_zero]
        refine congrArg₂ (fun u v => u + v) ?_ rfl
        refine Finset.sum_congr rfl ?_
        intro j _
        have hj : i + (j + 1) = i + 1 + j := by omega
        rw [hj]
      by_cases ha : a == 0
      · have ha0 : a = 0 := by simpa using ha
        rw [if_pos ha, ih (i + 1) acc n (by omega), hsum, ha0, cK_zero]
        ring
      · rw [if_neg ha, ih (i + 1) (mulAddInto acc a i b) n (by rw [mulAddInto_length]; omega),
          coefK_mulAddInto b acc a i n (by omega), hsum]
        ring

theorem coefK_mulP_sem {a b : List Int} (ha : TrimmedL a) (hb : TrimmedL b) (n : Nat) :
    coefK (mulP a b) n = mulSem a b n := by
  have hla := trimmed_length ha
  have hlb := trimmed_length hb
  unfold mulP
  rw [coefK_newP, coefK_mulOuter b a 0 (List.replicate (degreeL a + degreeL b + 1) (0 : Int)) n
      (by rw [List.length_replicate]; omega)]
  have hacc : coefK (List.replicate (degreeL a + degreeL b + 1) (0 : Int)) n = 0 :=
    coefK_zero_of_getD (getD_replicate _ n)
  rw [hacc, zero_add]
  simp only [Nat.zero_add]
  unfold mulSem
  have hext1 : ∑ j ∈ Finset.range a.length, cK (a.getD j 0) * shiftK j b n =
      ∑ j ∈ Finset.range (max a.length (n + 1)), cK (a.getD j 0) * shiftK j b n := by
    refine Finset.sum_subset (Finset.range_subset.2 (by omega)) ?_
    intro j hj1 hj2
    simp only [Finset.mem_range] at hj1 hj2
    rw [getD_eq_zero_of_length_le (by omega), cK_zero, zero_mul]
  have hext2 : ∑ j ∈ Finset.range (n + 1), coefK a j * coefK b (n - j) =
      ∑ j ∈ Finset.range (max a.length (n + 1)), cK (a.getD j 0) * shiftK j b n := by
    rw [show (∑ j ∈ Finset.range (n + 1), coefK a j * coefK b (n - j)) =
        ∑ j ∈ Finset.range (n + 1), cK (a.getD j 0) * shiftK j b n from
      Finset.sum_congr rfl (by
        intro j hj
        simp only [Finset.mem_range] at hj
        unfold shiftK coefK
        rw [if_pos (by omega)])]
    refine Finset.sum_subset (Finset.range_subset.2 (by omega)) ?_
    intro j hj1 hj2
    simp only [Finset.mem_range] at hj1 hj2
    unfold shiftK
    rw [if_neg (by omega), mul_zero]
  rw [hext1, hext2]

theorem coefK_term (δ : Nat) (v : Int) (j : Nat) :
    coefK (newP ((List.replicate (δ + 1) (0 : Int)).set δ v)) j =
      if j = δ then cK v else 0 := by
  rw [coefK_newP]
  unfold coefK
  rw [getD_set]
  by_cases h : j = δ
  · subst h
    rw [if_pos ⟨rfl, by simp⟩, if_pos rfl]
  · rw [if_neg (fun hc => h hc.1.symm), if_neg h, getD_replicate, cK_zero]

theorem mulSem_addP_left (q t d : List Int) (n : Nat) :
    mulSem (addP q t) d n = mulSem q d n + mulSem t d n := by
  unfold mulSem
  rw [← Finset.sum_add_distrib]
  refine Finset.sum_congr rfl ?_
  intro i _
  rw [coefK_addP]
  ring

theorem mulSem_term (δ : Nat) (v : Int) (d : List Int) (n : Nat) :
    mulSem (newP ((List.replicate (δ + 1) (0 : Int)).set δ v)) d n =
      if δ ≤ n then cK v * coefK d (n - δ) else 0 := by
  unfold mulSem
  rw [Finset.sum_congr rfl (fun i _ => by rw [coefK_term])]
  simp only [ite_mul, zero_mul]
  rw [Finset.sum_ite_eq' (Finset.range (n + 1)) δ (fun i => cK v * coefK d (n - i))]
  by_cases h : δ ≤ n
  · rw [if_pos (by simp; omega), if_pos h]
  · rw [if_neg (by simp; omega), if_neg h]

/-! ## Canonical-residue preservation -/

theorem canonL_replicate (L : Nat) : CanonL (List.replicate L (0 : Int)) := by
  intro x hx
  have := List.eq_of_mem_replicate hx
  omega

theorem canonL_set {l : List Int} {v : Int} (hl : CanonL l) (hv : 0 ≤ v ∧ v < 13)
    (i : Nat) : CanonL (l.set i v) := by
  intro x hx
  rcases List.mem_or_eq_of_mem_set hx with h | h
  · exact hl x h
  · subst h; exact hv

theorem canonL_newP {l : List Int} (hl : CanonL l) : CanonL (newP l) := by
  intro x hx
  exact hl x (List.take_subset _ l hx)

theorem canonL_copyInto (l : List Int) :
    ∀ (acc : List Int) (i : Nat), CanonL acc → CanonL l → CanonL (copyInto acc i l) := by
  induction l with
  | nil => intro acc i hacc _; exact hacc
  | cons c cs ih =>
      intro acc i hacc hl
      unfold copyInto
      exact ih _ _ (canonL_set hacc (hl c (by simp)) i) (fun x hx => hl x (by simp [hx]))

theorem canonL_addInto (l : List Int) :
    ∀ (acc : List Int) (i : Nat), CanonL acc → CanonL l → CanonL (addInto acc i l) := by
  induction l with
  | nil => intro acc i hacc _; exact hacc
  | cons c cs ih =>
      intro acc i hacc hl
      unfold addInto
      refine ih _ _ (canonL_set hacc ?_ i) (fun x hx => hl x (by simp [hx]))
      exact add13_canon (canon_getD hacc i).1 (hl c (by simp)).1

theorem canonL_mulAddInto (l : List Int) :
    ∀ (acc : List Int) (v : Int) (i : Nat), CanonL acc → 0 ≤ v → CanonL l →
      CanonL (mulAddInto acc v i l) := by
  induction l with
  | nil => intro acc v i hacc _ _; exact hacc
  | cons c cs ih =>
      intro acc v i hacc hv hl
      unfold mulAddInto
      refine ih _ _ _ (canonL_set hacc ?_ i) hv (fun x hx => hl x (by simp [hx]))
      exact add13_canon (canon_getD hacc i).1 (mul13_canon hv (hl c (by simp)).1).1

theorem canonL_addP {a b : List Int} (ha : CanonL a) (hb : CanonL b) :
    CanonL (addP a b) := by
  unfold addP
  exact canonL_newP (canonL_addInto b _ 0 (canonL_copyInto a _ 0 (canonL_replicate _) ha) hb)

theorem canonL_negP {a : List Int} (ha : CanonL a) : CanonL (negP a) := by
  unfold negP
  refine canonL_newP ?_
  intro x hx
  obtain ⟨y, hy, rfl⟩ := List.mem_map.1 hx
  exact neg13_canon (by have := ha y hy; omega)

theorem canonL_subP {a b : List Int} (ha : CanonL a) (hb : CanonL b) :
    CanonL (subP a b) :=
  canonL_addP ha (canonL_negP hb)

theorem canonL_mulOuter (b : List Int) :
    ∀ (l : List Int) (i : Nat) (acc : List Int), CanonL acc → CanonL l → CanonL b →
      CanonL (mulOuter b l i acc) := by
  intro l
  induction l with
  | nil => intro i acc hacc _ _; exact hacc
  | cons a as_ ih =>
      intro i acc hacc hl hb
      unfold mulOuter
      by_cases h : a == 0
      · rw [if_pos h]
        exact ih _ _ hacc (fun x hx => hl x (by simp [hx])) hb
      · rw [if_neg h]
        exact ih _ _ (canonL_mulAddInto b acc a i hacc (hl a (by simp)).1 hb)
          (fun x hx => hl x (by simp [hx])) hb

theorem canonL_mulP {a b : List Int} (ha : CanonL a) (hb : CanonL b) :
    CanonL (mulP a b) := by
  unfold mulP
  exact canonL_newP (canonL_mulOuter b a 0 _ (canonL_replicate _) ha hb)

theorem canonL_term {v : Int} (hv : 0 ≤ v ∧ v < 13) (δ : Nat) :
    CanonL (newP ((List.replicate (δ + 1) (0 : Int)).set δ v)) :=
  canonL_newP (canonL_set (canonL_replicate _) hv δ)

/-! ## Degree bookkeeping for the division loop -/

theorem coefK_lead (l : List Int) : coefK l (degreeL l) = cK (leadL l) := rfl

theorem coefK_lead_ne {l : List Int} (hc : CanonP l) (hz : isZeroP l = false) :
    coefK l (degreeL l) ≠ 0 := by
  rw [coefK_lead]
  have hne := (trimmed_lead hc.1 hz).1
  have hcanon := canon_getD hc.2 (degreeL l)
  exact cK_ne_zero_of_canon hcanon.1 hcanon.2 hne

theorem degreeL_lt_of_coefK_vanish {l : List Int} {m : Nat} (hc : CanonP l)
    (hz : isZeroP l = false) (h : ∀ n, m ≤ n → coefK l n = 0) : degreeL l < m := by
  by_contra hcon
  exact coefK_lead_ne hc hz (h (degreeL l) (by omega))

theorem isZero_of_lead_zero {l : List Int} (h : TrimmedL l) (hl : leadL l = 0) :
    isZeroP l = true := by
  cases hz : isZeroP l with
  | true => rfl
  | false => exact absurd hl (trimmed_lead h hz).1

theorem divStep_vanish {r d : List Int} (hd : CanonP d)
    (hdz : isZeroP d = false) (hge : degreeL d ≤ degreeL r) :
    (∀ n, mulSem (newP ((List.replicate (degreeL r - degreeL d + 1) (0 : Int)).set
        (degreeL r - degreeL d) (div13 (leadL r) (leadL d)))) d n +
      coefK (subP r (mulP (newP ((List.replicate (degreeL r - degreeL d + 1) (0 : Int)).set
        (degreeL r - degreeL d) (div13 (leadL r) (leadL d)))) d)) n = coefK r n) ∧
    (∀ n, degreeL r ≤ n →
      coefK (subP r (mulP (newP ((List.replicate (degreeL r - degreeL d + 1) (0 : Int)).set
        (degreeL r - degreeL d) (div13 (leadL r) (leadL d)))) d)) n = 0) := by
  set δ := degreeL r - degreeL d with hδ
  set v := div13 (leadL r) (leadL d) with hv
  set t := newP ((List.replicate (δ + 1) (0 : Int)).set δ v) with ht
  have htr : TrimmedL t := trimmed_newP (by
    intro hc
    have : ((List.replicate (δ + 1) (0 : Int)).set δ v).length = δ + 1 := by
      rw [List.length_set, List.length_replicate]
    rw [hc] at this
    simp at this)
  have hmul : ∀ n, coefK (mulP t d) n = if δ ≤ n then cK v * coefK d (n - δ) else 0 := by
    intro n
    rw [coefK_mulP_sem htr hd.1, ht, mulSem_term]
  have hsub : ∀ n, coefK (subP r (mulP t d)) n =
      coefK r n - (if δ ≤ n then cK v * coefK d (n - δ) else 0) := by
    intro n
    rw [coefK_subP, hmul]
  constructor
  · intro n
    rw [ht, mulSem_term, ← ht, hsub]
    ring
  · intro n hn
    rw [hsub, if_pos (by omega)]
    rcases Nat.eq_or_lt_of_le hn with h | h
    · have hnd : n - δ = degreeL d := by omega
      have hcancel : cK v * coefK d (n - δ) = cK (leadL r) := by
        rw [hnd, coefK_lead, hv]
        have hld := canon_getD hd.2 (degreeL d)
        have hldne := (trimmed_lead hd.1 hdz).1
        exact cK_div13_mul_cancel hld.1 hld.2 (cK_ne_zero_of_canon hld.1 hld.2 hldne)
      rw [hcancel, ← h, coefK_lead]
      ring
    · have h1 : coefK r n = 0 := coefK_zero_of_getD (getD_of_degreeL_lt h)
      have h2 : coefK d (n - δ) = 0 := coefK_zero_of_getD (getD_of_degreeL_lt (by omega))
      rw [h1, h2]
      ring

theorem divModAux_spec {d : List Int} (hd : CanonP d) (hdz : isZeroP d = false) :
    ∀ (fuel : Nat) (q r : List Int), CanonP q → CanonP r → degreeL r + 2 ≤ fuel →
      CanonP (divModAux d fuel q r).1 ∧ CanonP (divModAux d fuel q r).2 ∧
      (∀ n, mulSem (divModAux d fuel q r).1 d n + coefK (divModAux d fuel q r).2 n =
        mulSem q d n + coefK r n) ∧
      (isZeroP (divModAux d fuel q r).2 = true ∨
        degreeL (divModAux d fuel q r).2 < degreeL d) := by
  intro fuel
  induction fuel with
  | zero => intro q r _ _ hfuel; omega
  | succ m ih =>
      intro q r hq hr hfuel
      by_cases hcond : degreeL d ≤ degreeL r ∧ leadL r ≠ 0
      · have hstep :
            divModAux d (m + 1) q r =
              divModAux d m
                (addP q (newP ((List.replicate (degreeL r - degreeL d + 1) (0 : Int)).set
                  (degreeL r - degreeL d) (div13 (leadL r) (leadL d)))))
                (subP r (mulP (newP ((List.replicate (degreeL r - degreeL d + 1) (0 : Int)).set
                  (degreeL r - degreeL d) (div13 (leadL r) (leadL d)))) d)) := by
          conv_lhs => unfold divModAux
          rw [if_pos hcond]
        set t := newP ((List.replicate (degreeL r - degreeL d + 1) (0 : Int)).set
          (degreeL r - degreeL d) (div13 (leadL r) (leadL d))) with ht
        set q2 := addP q t with hq2def
        set r2 := subP r (mulP t d) with hr2def
        have hlr := canon_getD hr.2 (degreeL r)
        have hld := canon_getD hd.2 (degreeL d)
        have htc : CanonP t := ⟨trimmed_newP (by
            intro hc
            have : ((List.replicate (degreeL r - degreeL d + 1) (0 : Int)).set
                (degreeL r - degreeL d) (div13 (leadL r) (leadL d))).length =
                degreeL r - degreeL d + 1 := by
              rw [List.length_set, List.length_replicate]
            rw [hc] at this
            simp at this),
          canonL_term (div13_canon hlr.1 hld.1 hld.2) _⟩
        have hq2 : CanonP q2 := ⟨trimmed_addP _ _, canonL_addP hq.2 htc.2⟩
        have hr2 : CanonP r2 := ⟨trimmed_subP _ _, canonL_subP hr.2 (canonL_mulP htc.2 hd.2)⟩
        have hvan := divStep_vanish hd hdz hcond.1
        have hident : ∀ n, mulSem q2 d n + coefK r2 n = mulSem q d n + coefK r n := by
          intro n
          rw [hq2def, mulSem_addP_left]
          have := hvan.1 n
          rw [← ht] at this
          rw [← hr2def] at this
          calc mulSem q d n + mulSem t d n + coefK r2 n
              = mulSem q d n + (mulSem t d n + coefK r2 n) := by ring
            _ = mulSem q d n + coefK r n := by rw [this]
        by_cases hz2 : isZeroP r2 = true
        · have hdone : divModAux d m q2 r2 = (q2, r2) := by
            obtain ⟨k, rfl⟩ : ∃ k, m = k + 1 := ⟨m - 1, by omega⟩
            unfold divModAux
            rw [if_neg (by
              intro hc
              have : leadL r2 = 0 := isZeroP_getD hz2 (degreeL r2)
              exact hc.2 this)]
          rw [hstep, hdone]
          exact ⟨hq2, hr2, hident, Or.inl hz2⟩
        · have hz2f : isZeroP r2 = false := by
            cases h : isZeroP r2 with
            | true => exact absurd h hz2
            | false => rfl
          have hdeg2 : degreeL r2 < degreeL r := by
            refine degreeL_lt_of_coefK_vanish hr2 hz2f ?_
            intro n hn
            have := hvan.2 n hn
            rw [← ht, ← hr2def] at this
            exact this
          have hrec := ih q2 r2 hq2 hr2 (by omega)
          rw [hstep]
          refine ⟨hrec.1, hrec.2.1, ?_, hrec.2.2.2⟩
          intro n
          rw [hrec.2.2.1 n, hident n]
      · have hstop : divModAux d (m + 1) q r = (q, r) := by
          unfold divModAux
          rw [if_neg hcond]
        rw [hstop]
        refine ⟨hq, hr, fun n => rfl, ?_⟩
        show isZeroP r = true ∨ degreeL r < degreeL d
        by_cases hlr : leadL r = 0
        · exact Or.inl (isZero_of_lead_zero hr.1 hlr)
        · right
          by_contra hc
          exact hcond ⟨by omega, hlr⟩

theorem trimmed_length_le {a b : List Int} (ha : TrimmedL a) (hb : TrimmedL b)
    (hgd : ∀ n, a.getD n 0 = b.getD n 0) : b.length ≤ a.length := by
  by_contra hc
  push_neg at hc
  rcases hb.2 with h1 | h2
  · have hz : a.length = 0 := by omega
    exact ha.1 (List.eq_nil_of_length_eq_zero hz)
  · have : b.getD (b.length - 1) 0 = 0 := by
      rw [← hgd]
      exact getD_eq_zero_of_length_le (by omega)
    exact h2 this

theorem canonP_ext {a b : List Int} (ha : CanonP a) (hb : CanonP b)
    (h : ∀ n, coefK a n = coefK b n) : a = b := by
  have hgd : ∀ n, a.getD n 0 = b.getD n 0 := by
    intro n
    have h1 := canon_getD ha.2 n
    have h2 := canon_getD hb.2 n
    exact cK_inj h1.1 h1.2 h2.1 h2.2 (h n)
  have hlen : a.length = b.length :=
    Nat.le_antisymm (trimmed_length_le hb.1 ha.1 (fun n => (hgd n).symm))
      (trimmed_length_le ha.1 hb.1 hgd)
  refine List.ext_getElem hlen ?_
  intro n h1 h2
  have hx : a.getD n 0 = a[n] := by
    rw [List.getD_eq_getElem?_getD, List.getElem?_eq_getElem h1]
    rfl
  have hy : b.getD n 0 = b[n] := by
    rw [List.getD_eq_getElem?_getD, List.getElem?_eq_getElem h2]
    rfl
  rw [← hx, ← hy]
  exact hgd n

/-- C8 (amended): over canonical-form polynomials (trimmed, with reduced
`Mod13` coefficients) and a non-zero divisor `d`, long division satisfies
`p == (p / d) * d + (p % d)` under the polynomial `PartialEq`, and the
remainder is either the zero polynomial or of degree strictly below the
divisor's (the claim's strict bound fails when `deg d = 0`, since the zero
remainder has degree 0 by convention). -/
theorem c8_division_identity :
    ∀ p d : List Int, CanonP p → CanonP d → isZeroP d = false →
      peqP p (addP (mulP (divP p d) d) (remP p d)) = true ∧
      (isZeroP (remP p d) = true ∨ degreeL (remP p d) < degreeL d) := by
  intro p d hp hd hdz
  have hq0 : CanonP (newP [0]) :=
    ⟨trimmed_newP_zero, canonL_newP (by intro x hx; simp at hx; omega)⟩
  have hfuel : degreeL p + 2 ≤ p.length + 1 := by
    have := trimmed_length hp.1
    omega
  have hspec := divModAux_spec hd hdz (p.length + 1) (newP [0]) p hq0 hp hfuel
  have hzero : ∀ n, mulSem (newP [0]) d n = 0 := by
    intro n
    unfold mulSem
    refine Finset.sum_eq_zero ?_
    intro i _
    have hz : coefK (newP [0]) i = 0 := by
      rw [coefK_newP]
      exact coefK_zero_of_getD (by cases i <;> simp)
    rw [hz, zero_mul]
  have hcoef : ∀ n, coefK (addP (mulP (divP p d) d) (remP p d)) n = coefK p n := by
    intro n
    simp only [divP, remP, divModP]
    rw [coefK_addP, coefK_mulP_sem hspec.1.1 hd.1]
    have hid := hspec.2.2.1 n
    rw [hzero n, zero_add] at hid
    exact hid
  have heq : addP (mulP (divP p d) d) (remP p d) = p :=
    canonP_ext
      ⟨trimmed_addP _ _, canonL_addP (canonL_mulP hspec.1.2 hd.2) hspec.2.1.2⟩ hp hcoef
  exact ⟨peqP_of_eq heq.symm, hspec.2.2.2⟩

theorem c8_division_identity_witness :
    peqP [2, 5, 7, 3] (addP (mulP (divP [2, 5, 7, 3] [1, 4, 1]) [1, 4, 1])
      (remP [2, 5, 7, 3] [1, 4, 1])) = true ∧
    (isZeroP (remP [2, 5, 7, 3] [1, 4, 1]) = true ∨
      degreeL (remP [2, 5, 7, 3] [1, 4, 1]) < degreeL [1, 4, 1]) :=
  c8_division_identity [2, 5, 7, 3] [1, 4, 1] (by decide) (by decide) (by decide)

/-- C8 counterexample: dividing `3 + 5x` by the non-zero constant polynomial
`6` (a test case of the repository itself) leaves the zero remainder, whose
degree is 0 by convention — not strictly below the divisor's degree 0, so
the claim's bound `deg(p % d) < deg(d)` fails as stated. -/
theorem c8_counterexample_degree_bound :
    isZeroP [6] = false ∧ ¬ degreeL (remP [3, 5] [6]) < degreeL [6] := by decide

/-! ## Claim theorems: concrete pairing value and bilinearity

The pairing pipeline is verified in stages: the test points and their
doubles are first evaluated to literal coordinates, each subgroup-validity
check, Miller-loop value and final exponentiation is settled by a separate
kernel computation, and the `tate_pairing` results are assembled from those
pieces through the two unfolding lemmas below. -/

/-- Unfolding lemma: when both validity asserts pass and the Miller loop
returns `f`, `tate_pairing` returns the final exponentiation of `f`. -/
theorem tatePairing_ok {p q : Pt} {f v : List Int}
    (h1 : isValidG1 p = true) (h2 : isValidG2 q = true)
    (h3 : millerLoop p q = Except.ok f)
    (h4 : finalExponentiation f = v) :
    tatePairing p q = Except.ok v := by
  unfold tatePairing
  simp [h1, h2, h3, h4, Bind.bind, Except.bind, Pure.pure, Except.pure]

/-- Unfolding lemma: when both validity asserts pass but the Miller loop
fails, `tate_pairing` propagates the failure. -/
theorem tatePairing_millerErr {p q : Pt} {e : Err}
    (h1 : isValidG1 p = true) (h2 : isValidG2 q = true)
    (h3 : millerLoop p q = Except.error e) :
    tatePairing p q = Except.error e := by
  unfold tatePairing
  simp [h1, h2, h3, Bind.bind, Except.bind, Pure.pure, Except.pure]

/-- The G1 test point evaluates to the literal coordinates `(8, 8)`. -/
theorem pG1_val : pG1 = Pt.xy [8] [8] := by decide

/-- The G2 test point evaluates to `(7 + 4x^2, 10x + 5x^3)`. -/
theorem qG2_val : qG2 = Pt.xy [7, 0, 4] [0, 10, 0, 5] := by decide

/-- The 2-torsion point evaluates to the literal coordinates `(4, 0)`. -/
theorem qTor_val : qTor = Pt.xy [4] [0] := by decide

/-- Doubling the G1 generator: `2 * (8, 8) = (7, 11)`. -/
theorem dblP1 : doublePt (Pt.xy [8] [8]) = Pt.xy [7] [11] := by decide

/-- Doubling again: `4 * (8, 8) = (8, 5)`. -/
theorem dblP2 : doublePt (Pt.xy [7] [11]) = Pt.xy [8] [5] := by decide

/-- Doubling the G2 generator. -/
theorem dblQ1 :
    doublePt (Pt.xy [7, 0, 4] [0, 10, 0, 5]) =
      Pt.xy [7, 0, 9] [0, 2, 0, 12] := by decide

/-- Doubling again: four times the G2 generator. -/
theorem dblQ2 :
    doublePt (Pt.xy [7, 0, 9] [0, 2, 0, 12]) =
      Pt.xy [7, 0, 4] [0, 3, 0, 8] := by decide

/-- Doubling the 2-torsion point gives the point at infinity. -/
theorem dblQT : doublePt (Pt.xy [4] [0]) = Pt.inf := by decide

set_option maxHeartbeats 1000000 in
/-- `is_valid_g1` holds at the G1 generator `(8, 8)`. -/
theorem vG1p1 : isValidG1 (Pt.xy [8] [8]) = true := by decide

set_option maxHeartbeats 1000000 in
/-- `is_valid_g1` holds at twice the G1 generator. -/
theorem vG1p2 : isValidG1 (Pt.xy [7] [11]) = true := by decide

set_option maxHeartbeats 1000000 in
/-- `is_valid_g1` holds at four times the G1 generator. -/
theorem vG1p4 : isValidG1 (Pt.xy [8] [5]) = true := by decide

set_option maxHeartbeats 4000000 in
/-- `is_valid_g2` holds at the G2 generator. -/
theorem vG2q1 : isValidG2 (Pt.xy [7, 0, 4] [0, 10, 0, 5]) = true := by decide

set_option maxHeartbeats 4000000 in
/-- `is_valid_g2` holds at twice the G2 generator. -/
theorem vG2q2 : isValidG2 (Pt.xy [7, 0, 9] [0, 2, 0, 12]) = true := by decide

set_option maxHeartbeats 4000000 in
/-- `is_valid_g2` holds at four times the G2 generator. -/
theorem vG2q4 : isValidG2 (Pt.xy [7, 0, 4] [0, 3, 0, 8]) = true := by decide

set_option maxHeartbeats 1000000 in
/-- `is_valid_g2` holds at the 2-torsion point `(4, 0)`. -/
theorem vG2qt : isValidG2 (Pt.xy [4] [0]) = true := by decide

/-- `is_valid_g2` holds at the point at infinity. -/
theorem vG2inf : isValidG2 Pt.inf = true := by decide

set_option maxHeartbeats 1000000 in
/-- Miller loop of the G1 generator with the G2 generator. -/
theorem mlP1Q1 :
    millerLoop (Pt.xy [8] [8]) (Pt.xy [7, 0, 4] [0, 10, 0, 5]) =
      Except.ok [9, 2, 11, 12] := by decide

set_option maxHeartbeats 1000000 in
/-- Miller loop of the G1 generator with twice the G2 generator. -/
theorem mlP1Q2 :
    millerLoop (Pt.xy [8] [8]) (Pt.xy [7, 0, 9] [0, 2, 0, 12]) =
      Except.ok [9, 3, 2, 8] := by decide

set_option maxHeartbeats 1000000 in
/-- Miller loop of twice the G1 generator with the G2 generator. -/
theorem mlP2Q1 :
    millerLoop (Pt.xy [7] [11]) (Pt.xy [7, 0, 4] [0, 10, 0, 5]) =
      Except.ok [7, 0, 11, 11] := by decide

set_option maxHeartbeats 1000000 in
/-- Miller loop of the G1 generator with four times the G2 generator. -/
theorem mlP1Q4 :
    millerLoop (Pt.xy [8] [8]) (Pt.xy [7, 0, 4] [0, 3, 0, 8]) =
      Except.ok [9, 11, 11, 1] := by decide

set_option maxHeartbeats 1000000 in
/-- Miller loop of twice the G1 generator with twice the G2 generator. -/
theorem mlP2Q2 :
    millerLoop (Pt.xy [7] [11]) (Pt.xy [7, 0, 9] [0, 2, 0, 12]) =
      Except.ok [7, 0, 2, 3] := by decide

set_option maxHeartbeats 1000000 in
/-- Miller loop of four times the G1 generator with the G2 generator. -/
theorem mlP4Q1 :
    millerLoop (Pt.xy [8] [5]) (Pt.xy [7, 0, 4] [0, 10, 0, 5]) =
      Except.ok [4, 2, 2, 12] := by decide

set_option maxHeartbeats 1000000 in
/-- Miller loop of twice the G1 generator with four times the G2 generator. -/
theorem mlP2Q4 :
    millerLoop (Pt.xy [7] [11]) (Pt.xy [7, 0, 4] [0, 3, 0, 8]) =
      Except.ok [7, 0, 11, 2] := by decide

set_option maxHeartbeats 1000000 in
/-- Miller loop of four times the G1 generator with twice the G2 generator. -/
theorem mlP4Q2 :
    millerLoop (Pt.xy [8] [5]) (Pt.xy [7, 0, 9] [0, 2, 0, 12]) =
      Except.ok [4, 3, 11, 8] := by decide

set_option maxHeartbeats 1000000 in
/-- Miller loop of twice the G1 generator with the 2-torsion point. -/
theorem mlP2Qt :
    millerLoop (Pt.xy [7] [11]) (Pt.xy [4] [0]) = Except.ok [1] := by decide

/-- Miller loop with the point at infinity as `q` fails on the coordinate
unwrap inside the line function. -/
theorem mlP1Inf :
    millerLoop (Pt.xy [8] [8]) Pt.inf = Except.error Err.unwrapNone := by decide

set_option maxHeartbeats 1000000 in
/-- Final exponentiation of the `(P, Q)` Miller value. -/
theorem fexP1Q1 : finalExponentiation [9, 2, 11, 12] = [3, 7, 7, 6] := by decide

set_option maxHeartbeats 1000000 in
/-- Final exponentiation of the `(P, 2Q)` Miller value. -/
theorem fexP1Q2 : finalExponentiation [9, 3, 2, 8] = [3, 4, 6, 4] := by decide

set_option maxHeartbeats 1000000 in
/-- Final exponentiation of the `(2P, Q)` Miller value. -/
theorem fexP2Q1 : finalExponentiation [7, 0, 11, 11] = [3, 4, 6, 4] := by decide

set_option maxHeartbeats 1000000 in
/-- Final exponentiation of the `(P, 4Q)` Miller value. -/
theorem fexP1Q4 : finalExponentiation [9, 11, 11, 1] = [3, 6, 7, 7] := by decide

set_option maxHeartbeats 1000000 in
/-- Final exponentiation of the `(2P, 2Q)` Miller value. -/
theorem fexP2Q2 : finalExponentiation [7, 0, 2, 3] = [3, 6, 7, 7] := by decide

set_option maxHeartbeats 1000000 in
/-- Final exponentiation of the `(4P, Q)` Miller value. -/
theorem fexP4Q1 : finalExponentiation [4, 2, 2, 12] = [3, 6, 7, 7] := by decide

set_option maxHeartbeats 1000000 in
/-- Final exponentiation of the `(2P, 4Q)` Miller value. -/
theorem fexP2Q4 : finalExponentiation [7, 0, 11, 2] = [3, 9, 6, 9] := by decide

set_option maxHeartbeats 1000000 in
/-- Final exponentiation of the `(4P, 2Q)` Miller value. -/
theorem fexP4Q2 : finalExponentiation [4, 3, 11, 8] = [3, 9, 6, 9] := by decide

set_option maxHeartbeats 1000000 in
/-- Final exponentiation of the Miller value at the 2-torsion point. -/
theorem fexP2Qt : finalExponentiation [1] = [1] := by decide

/-- C2: on TinyJJ the point with both coordinates the constant polynomial 8
satisfies the curve equation, and `tate_pairing` of that point with the
point `(7 + 4x^2, 10x + 5x^3)` returns the extension-field element with
coefficients `[3, 7, 7, 6]`. -/
theorem c2_tinyjj_pairing_value :
    isOnCurve x88 x88 = true ∧
    tatePairing pG1 qG2 = .ok (newFE4 (fromVecP [3, 7, 7, 6])) := by
  refine ⟨by decide, ?_⟩
  rw [pG1_val, qG2_val, tatePairing_ok vG1p1 vG2q1 mlP1Q1 fexP1Q1]
  decide

/-- C1 counterexample: the 2-torsion point `(4, 0)` and its double (infinity)
pass `is_valid_g2`, and `(8, 8)` and its double pass `is_valid_g1` — so the
claim's hypotheses hold — yet `tate_pairing((8,8), (4,0).double())` panics in
the line function (the double is infinity) while
`tate_pairing((8,8).double(), (4,0))` returns a value: the two sides are not
equal. -/
theorem c1_counterexample_torsion_point :
    isOnCurve x88 x88 = true ∧
    isOnCurve (newFE4 (fromVecP [4])) (newFE4 (fromVecP [0])) = true ∧
    isValidG1 pG1 = true ∧ isValidG1 (doublePt pG1) = true ∧
    isValidG2 qTor = true ∧ isValidG2 (doublePt qTor) = true ∧
    tatePairing pG1 (doublePt qTor) ≠ tatePairing (doublePt pG1) qTor := by
  refine ⟨by decide, by decide, ?_, ?_, ?_, ?_, ?_⟩
  · rw [pG1_val]; exact vG1p1
  · rw [pG1_val, dblP1]; exact vG1p2
  · rw [qTor_val]; exact vG2qt
  · rw [qTor_val, dblQT]; exact vG2inf
  · rw [pG1_val, qTor_val, dblQT, dblP1,
      tatePairing_millerErr vG1p1 vG2inf mlP1Inf,
      tatePairing_ok vG1p2 vG2qt mlP2Qt fexP2Qt]
    decide

/-- Bilinearity instance `(P, 2Q)` versus `(2P, Q)`. -/
theorem bilinPair11 :
    tatePairing pG1 (doublePt qG2) = tatePairing (doublePt pG1) qG2 := by
  rw [pG1_val, qG2_val, dblQ1, dblP1,
    tatePairing_ok vG1p1 vG2q2 mlP1Q2 fexP1Q2,
    tatePairing_ok vG1p2 vG2q1 mlP2Q1 fexP2Q1]

/-- Bilinearity instance `(P, 4Q)` versus `(2P, 2Q)`. -/
theorem bilinPair12 :
    tatePairing pG1 (doublePt (doublePt qG2)) =
      tatePairing (doublePt pG1) (doublePt qG2) := by
  rw [pG1_val, qG2_val, dblQ1, dblQ2, dblP1,
    tatePairing_ok vG1p1 vG2q4 mlP1Q4 fexP1Q4,
    tatePairing_ok vG1p2 vG2q2 mlP2Q2 fexP2Q2]

/-- Bilinearity instance `(2P, 2Q)` versus `(4P, Q)`. -/
theorem bilinPair21 :
    tatePairing (doublePt pG1) (doublePt qG2) =
      tatePairing (doublePt (doublePt pG1)) qG2 := by
  rw [pG1_val, qG2_val, dblP1, dblP2, dblQ1,
    tatePairing_ok vG1p2 vG2q2 mlP2Q2 fexP2Q2,
    tatePairing_ok vG1p4 vG2q1 mlP4Q1 fexP4Q1]

/-- Bilinearity instance `(2P, 4Q)` versus `(4P, 2Q)`. -/
theorem bilinPair22 :
    tatePairing (doublePt pG1) (doublePt (doublePt qG2)) =
      tatePairing (doublePt (doublePt pG1)) (doublePt qG2) := by
  rw [pG1_val, qG2_val, dblP1, dblP2, dblQ1, dblQ2,
    tatePairing_ok vG1p2 vG2q4 mlP2Q4 fexP2Q4,
    tatePairing_ok vG1p4 vG2q2 mlP4Q2 fexP4Q2]

/-- C1 (amended): restricted to points of the intended order-`r` pairing
subgroups — `p` among the G1 test generator `(8, 8)` and its double, `q`
among the G2 test generator `(7 + 4x^2, 10x + 5x^3)` and its double — the
doubling bilinearity `tate_pairing(p, q.double()) =
tate_pairing(p.double(), q)` holds (the claim as stated fails for
degenerate points such as `(4, 0)` that pass the validity checks). -/
theorem c1_bilinearity_on_subgroups :
    ∀ p ∈ g1Pts, ∀ q ∈ g2Pts,
      tatePairing p (doublePt q) = tatePairing (doublePt p) q := by
  intro p hp q hq
  simp only [g1Pts, g2Pts, List.mem_cons, List.not_mem_nil, or_false] at hp hq
  rcases hp with rfl | rfl <;> rcases hq with rfl | rfl
  · exact bilinPair11
  · exact bilinPair12
  · exact bilinPair21
  · exact bilinPair22

theorem c1_bilinearity_on_subgroups_witness :
    tatePairing pG1 (doublePt qG2) = tatePairing (doublePt pG1) qG2 :=
  c1_bilinearity_on_subgroups pG1 (by decide) qG2 (by decide)
